import Mathlib

/-!
# Verification of the csvutil tag-driven CSV ↔ struct mapper

Shallow embedding of `csvutil.go` (package `csvutil`): the tag resolver
(`getStructTagForHeader`), the header binder (`getStructTags`), the per-row
decode closure produced by `readColumnDefCreateStruct`, and the row/header
construction of `WriteFromStruct` / `ReadToStruct`.

Modelling conventions:
* Go strings are `String`, rows are `List String`, a record instance is a
  `List Value` aligned with the struct's field list.
* Go maps (`map[string]int`, `map[int]string`) are modelled as a lookup
  function built by a left-to-right fold (`buildColNum`) and as association
  lists; where the source iterates a map, theorems quantify over an arbitrary
  permutation of the canonical association list.
* Machine integers are `Int` with explicit two's-complement truncation
  (`Int.bmod _ (2 ^ w)`) where `reflect.Value.SetInt` converts, and the
  `strconv.ParseInt(_, 10, 32)` range check is explicit.
* Floating point values are idealised as `ℚ`; `strconv.FormatFloat(x,'f',0,_)`
  is rounding to the nearest integer with ties to even (Go's
  `decimal.shouldRoundUp` rounds an exact half to even).
* A Go runtime panic (slice index out of range) is the `GoResult.panicked`
  outcome, distinct from a returned `error`.
-/

/-- Outcome of a Go computation: a runtime panic, a returned error, or a value. -/
inductive GoResult (ε α : Type) where
  | panicked : GoResult ε α
  | error : ε → GoResult ε α
  | ok : α → GoResult ε α
deriving DecidableEq, Repr

/-- The `reflect.Kind`s distinguished by the source's switches. -/
inductive FieldKind where
  | kInvalid
  | kBool
  | kInt | kInt8 | kInt16 | kInt32 | kInt64
  | kFloat32 | kFloat64
  | kString
  | kOther
deriving DecidableEq, Repr

/-- Bit width of a signed-integer kind (`reflect.Int` is 64-bit here). -/
def intWidth : FieldKind → Nat
  | .kInt => 64
  | .kInt8 => 8
  | .kInt16 => 16
  | .kInt32 => 32
  | .kInt64 => 64
  | _ => 0

def isIntKind : FieldKind → Bool
  | .kInt | .kInt8 | .kInt16 | .kInt32 | .kInt64 => true
  | _ => false

/-- A scalar field value (floats idealised as rationals). -/
inductive Value where
  | vBool (b : Bool)
  | vInt (n : Int)
  | vFloat (q : ℚ)
  | vString (s : String)
  | vOther
deriving DecidableEq

/-- One struct field: name, reflect kind, and the `col:"..."` tag
(`""` = no annotation, exactly as `fld.Tag.Get("col")` reports it). -/
structure StructField where
  name : String
  kind : FieldKind
  tag : String
deriving DecidableEq

def dfltField : StructField := ⟨"", .kInvalid, ""⟩

/-- The zero value `new(T)` gives a field of each kind. -/
def zeroValue : FieldKind → Value
  | .kBool => .vBool false
  | .kInt | .kInt8 | .kInt16 | .kInt32 | .kInt64 => .vInt 0
  | .kFloat32 | .kFloat64 => .vFloat 0
  | .kString => .vString ""
  | .kInvalid | .kOther => .vOther

def zeroRecord (fields : List StructField) : List Value :=
  fields.map (fun f => zeroValue f.kind)

/-! ## Decimal formatting and parsing (models of `strconv`) -/

/-- The character of a decimal digit. -/
def digitChar (d : Nat) : Char := Char.ofNat (48 + d)

/-- Numeric value of a decimal digit character, if it is one. -/
def digitVal? (c : Char) : Option Nat :=
  if 48 ≤ c.toNat ∧ c.toNat ≤ 57 then some (c.toNat - 48) else none

def isDigitChar (c : Char) : Bool := (digitVal? c).isSome

/-- Little-endian decimal digits of `n` (fuel-structured so the kernel reduces it). -/
def natDigitsAux : Nat → Nat → List Nat
  | 0, _ => []
  | fuel + 1, n => if n = 0 then [] else n % 10 :: natDigitsAux fuel (n / 10)

def natDecDigits (n : Nat) : List Nat := natDigitsAux n n

/-- Decimal characters of `n`, most significant first (model of `strconv.FormatUint`). -/
def natDecChars (n : Nat) : List Char :=
  if n = 0 then ['0'] else ((natDecDigits n).reverse).map digitChar

/-- Model of `strconv.FormatInt(v, 10)`. -/
def decStr (v : Int) : String :=
  if v < 0 then String.mk ('-' :: natDecChars (-v).toNat)
  else String.mk (natDecChars v.toNat)

/-- Digit values of a character list, failing on any non-digit. -/
def digitsOfChars : List Char → Option (List Nat)
  | [] => some []
  | c :: cs =>
    match digitVal? c, digitsOfChars cs with
    | some d, some ds => some (d :: ds)
    | _, _ => none

/-- Parse a non-empty all-digit character list (most significant first). -/
def parseNatDigits (cs : List Char) : Option Nat :=
  match digitsOfChars cs with
  | some ds => if ds.isEmpty then none else some (Nat.ofDigits 10 ds.reverse)
  | none => none

/-- Model of `strconv.ParseInt(s, 10, 0-width)` before the range check:
optional sign, then a non-empty run of decimal digits, nothing else. -/
def parseIntChars (cs : List Char) : Option Int :=
  match cs with
  | [] => none
  | c :: rest =>
    if c = '-' then
      match parseNatDigits rest with
      | some n => some (-(n : Int))
      | none => none
    else if c = '+' then
      match parseNatDigits rest with
      | some n => some ((n : Int))
      | none => none
    else
      match parseNatDigits (c :: rest) with
      | some n => some ((n : Int))
      | none => none

def parseInt10 (s : String) : Option Int := parseIntChars s.data

/-- Model of `strconv.ParseInt(s, 10, 32)` as the source calls it: the value
must fit a signed 32-bit integer, else `err != nil` and the caller fails. -/
def parseIntGo32 (s : String) : Option Int :=
  match parseInt10 s with
  | some v => if -(2 ^ 31) ≤ v ∧ v ≤ 2 ^ 31 - 1 then some v else none
  | none => none

/-- Model of `strconv.ParseBool`: exactly Go's accepted token set. -/
def parseBoolGo (s : String) : Option Bool :=
  if s = "1" ∨ s = "t" ∨ s = "T" ∨ s = "true" ∨ s = "TRUE" ∨ s = "True" then some true
  else if s = "0" ∨ s = "f" ∨ s = "F" ∨ s = "false" ∨ s = "FALSE" ∨ s = "False" then some false
  else none

/-- Model of `strconv.FormatBool`. -/
def formatBoolGo (b : Bool) : String := if b then "true" else "false"

/-- Round to the nearest integer, ties to even: the rounding
`strconv.FormatFloat(x, 'f', 0, _)` applies to the exact value. -/
def rhe (q : ℚ) : Int :=
  if q - (⌊q⌋ : ℚ) < 1 / 2 then ⌊q⌋
  else if 1 / 2 < q - (⌊q⌋ : ℚ) then ⌊q⌋ + 1
  else if ⌊q⌋ % 2 = 0 then ⌊q⌋ else ⌊q⌋ + 1

/-- Model of `strconv.FormatFloat(x, 'f', 0, bitSize)`: fixed point with zero
fractional digits, i.e. the decimal text of the rounded value. -/
def formatFloatGo (q : ℚ) : String := decStr (rhe q)

/-- Model of the `strconv.ParseFloat` decimal grammar (over ℚ): digits,
optional fraction, optional exponent. -/
def parseUnsignedFloatChars (cs : List Char) : Option ℚ :=
  let ip := cs.takeWhile isDigitChar
  let rest := cs.dropWhile isDigitChar
  let intVal? : Option ℚ := (digitsOfChars ip).map (fun ds => (Nat.ofDigits 10 ds.reverse : ℚ))
  match rest with
  | [] => if ip.isEmpty then none else intVal?
  | '.' :: rest2 =>
    let fp := rest2.takeWhile isDigitChar
    let rest3 := rest2.dropWhile isDigitChar
    if ip.isEmpty ∧ fp.isEmpty then none
    else
      let mant? : Option ℚ := do
        let ids ← digitsOfChars ip
        let fds ← digitsOfChars fp
        pure ((Nat.ofDigits 10 ids.reverse : ℚ) + (Nat.ofDigits 10 fds.reverse : ℚ) / (10 : ℚ) ^ fds.length)
      match rest3 with
      | [] => mant?
      | 'e' :: ecs => mant?.bind (fun m => (parseIntChars ecs).map (fun e => m * (10 : ℚ) ^ e))
      | 'E' :: ecs => mant?.bind (fun m => (parseIntChars ecs).map (fun e => m * (10 : ℚ) ^ e))
      | _ => none
  | 'e' :: ecs =>
    if ip.isEmpty then none
    else intVal?.bind (fun m => (parseIntChars ecs).map (fun e => m * (10 : ℚ) ^ e))
  | 'E' :: ecs =>
    if ip.isEmpty then none
    else intVal?.bind (fun m => (parseIntChars ecs).map (fun e => m * (10 : ℚ) ^ e))
  | _ => none

def parseFloatChars (cs : List Char) : Option ℚ :=
  match cs with
  | [] => none
  | c :: rest =>
    if c = '-' then (parseUnsignedFloatChars rest).map Neg.neg
    else if c = '+' then parseUnsignedFloatChars rest
    else parseUnsignedFloatChars (c :: rest)

/-- Model of `strconv.ParseFloat` (on the values this program can meet). -/
def parseFloatGo (s : String) : Option ℚ := parseFloatChars s.data

/-! ## Errors -/

/-- The error returns of the decode closure in `readColumnDefCreateStruct`,
    by originating branch. -/
inductive DecodeErr where
  | fieldNotSupported (fieldName : String)
  | invalidBool (fieldName raw : String)
  | invalidInt (fieldName raw : String)
  | invalidFloat (fieldName raw : String)
  | unsupportedType (fieldName : String)
deriving DecidableEq

/-- The error returns of `WriteFromStruct`'s row-building switch. -/
inductive WriteErr where
  | fieldNotSupported
  | unsupportedType
deriving DecidableEq

/-- Errors surfaced by `ReadToStruct`: a wrapped `getStructTags` error
    (`"error during reading column tag ..."`) or a row decode error. -/
inductive ReadErr where
  | tagError (col : String)
  | rowError (e : DecodeErr)
deriving DecidableEq

/-! ## Header binder (`getStructTags`) -/

/-- `colNum := map[string]int{}; for i, v := range colHeader { colNum[v] = i }`:
    a single left-to-right pass where a later occurrence overwrites an earlier
    one.  `i` is the index of the first element of the remaining list. -/
def colNumFrom : List String → Nat → (String → Option Nat) → (String → Option Nat)
  | [], _, m => m
  | v :: rest, i, m => colNumFrom rest (i + 1) (fun c => if c = v then some i else m c)

/-- The column-name → column-index map built from a header row. -/
def buildColNum (colHeader : List String) : String → Option Nat :=
  colNumFrom colHeader 0 (fun _ => none)

/-- The field loop of `getStructTags`: for each field carrying a non-empty
    `col` tag, look its tag up in `colNum`; a missing column fails at once with
    `"column %s does not exist"` (the error carries that column name).
    The result is the `m[fld.Name] = n` map as an association list in field
    declaration order (Go field names are distinct, so keys are distinct). -/
def structTagsLoop (colNum : String → Option Nat) : List StructField → GoResult String (List (String × Nat))
  | [] => .ok []
  | fld :: rest =>
    if fld.tag = "" then structTagsLoop colNum rest
    else
      match colNum fld.tag with
      | none => .error fld.tag
      | some n =>
        match structTagsLoop colNum rest with
        | .panicked => .panicked
        | .error e => .error e
        | .ok m => .ok ((fld.name, n) :: m)

/-- Model of `getStructTags(T, colHeader)` (the struct-kind guard is upstream;
    here the field list of the struct is given directly). -/
def getStructTags (fields : List StructField) (colHeader : List String) : GoResult String (List (String × Nat)) :=
  structTagsLoop (buildColNum colHeader) fields

/-! ## Decode path (`readColumnDefCreateStruct`'s closure) -/

/-- `fields.findIdx? (·.name = k)`: the field `str.FieldByName(k)` designates;
    `none` models the zero `reflect.Value` (kind `Invalid`). -/
def findFieldIdx (fields : List StructField) (k : String) : Option Nat :=
  fields.findIdx? (fun f => f.name = k)

/-- One arm of the decode switch for binding entry `(k, v)`: dispatch on the
    field's kind first (exactly the source's `switch field.Kind()`), and only
    the scalar arms touch `row[v]` — an out-of-range `v` there is a Go panic.
    `SetInt` truncates to the declared width (`Int.bmod _ (2^w)`), and every
    integer kind parses via `strconv.ParseInt(_, 10, 32)`. -/
def decodeCellAt (kd : FieldKind) (k : String) (row : List String) (v : Nat) : GoResult DecodeErr Value :=
  match kd with
  | .kInvalid => .error (.fieldNotSupported k)
  | .kBool =>
    match row[v]? with
    | none => .panicked
    | some cell =>
      match parseBoolGo cell with
      | none => .error (.invalidBool k cell)
      | some b => .ok (.vBool b)
  | .kInt | .kInt8 | .kInt16 | .kInt32 | .kInt64 =>
    match row[v]? with
    | none => .panicked
    | some cell =>
      match parseIntGo32 cell with
      | none => .error (.invalidInt k cell)
      | some x => .ok (.vInt (Int.bmod x (2 ^ intWidth kd)))
  | .kFloat32 | .kFloat64 =>
    match row[v]? with
    | none => .panicked
    | some cell =>
      match parseFloatGo cell with
      | none => .error (.invalidFloat k cell)
      | some q => .ok (.vFloat q)
  | .kString =>
    match row[v]? with
    | none => .panicked
    | some cell => .ok (.vString cell)
  | .kOther => .error (.unsupportedType k)

/-- The `for k, v := range colDef` loop of the decode closure: each entry sets
    one field of the record under construction; the first failure aborts the
    row with no record. -/
def decodeCells (fields : List StructField) : List (String × Nat) → List String → List Value → GoResult DecodeErr (List Value)
  | [], _, acc => .ok acc
  | (k, v) :: rest, row, acc =>
    match findFieldIdx fields k with
    | none => .error (.fieldNotSupported k)
    | some i =>
      match decodeCellAt (fields.getD i dfltField).kind k row v with
      | .panicked => .panicked
      | .error e => .error e
      | .ok val => decodeCells fields rest row (acc.set i val)

/-- The decode closure returned by `readColumnDefCreateStruct`, applied to one
    raw row: start from the zero record `new(T)` and run the binding loop. -/
def decodeRow (fields : List StructField) (colDef : List (String × Nat)) (row : List String) : GoResult DecodeErr (List Value) :=
  decodeCells fields colDef row (zeroRecord fields)

/-- The loop of `ReadToStruct` over the data rows (every row after the
    header); the first failing row aborts the whole read. -/
def decodeAllRows (fields : List StructField) (colDef : List (String × Nat)) : List (List String) → GoResult ReadErr (List (List Value))
  | [] => .ok []
  | r :: rs =>
    match decodeRow fields colDef r with
    | .panicked => .panicked
    | .error e => .error (.rowError e)
    | .ok rec =>
      match decodeAllRows fields colDef rs with
      | .panicked => .panicked
      | .error e => .error e
      | .ok out => .ok (rec :: out)

/-- Model of `ReadToStruct` from the tokenized record grid on (file I/O and
    CSV framing are the out-of-scope collaborator).  `records[0]` on an empty
    grid is a Go index-out-of-range panic. -/
def ReadToStruct (fields : List StructField) (records : List (List String)) : GoResult ReadErr (List (List Value)) :=
  match records with
  | [] => .panicked
  | hd :: rest =>
    match getStructTags fields hd with
    | .panicked => .panicked
    | .error c => .error (.tagError c)
    | .ok colDef => decodeAllRows fields colDef rest

/-! ## Encode path (`WriteFromStruct`) -/

/-- Model of `getStructTagForHeader`: the `map[int]string` of annotated field
    index → column name, as an association list in field declaration order
    (theorems over the write path quantify over permutations of it, since Go
    map iteration order is arbitrary). -/
def getStructTagForHeader (fields : List StructField) : List (Nat × String) :=
  fields.enum.filterMap (fun p => if p.2.tag = "" then none else some (p.1, p.2.tag))

/-- `headRow := make([]string, len(header)); for i, v := range header { headRow[i] = v }`:
    scatter the map entries into a fresh slice; a key `≥ len(header)` is a Go
    index-out-of-range panic. -/
def scatterRow : List (Nat × String) → List String → GoResult WriteErr (List String)
  | [], arr => .ok arr
  | (i, v) :: rest, arr =>
    if i < arr.length then scatterRow rest (arr.set i v) else .panicked

/-- The `switch field.Kind()` of `WriteFromStruct`, encoding one field value
    to its cell text.  A kind/value mismatch is unrepresentable for a Go
    `reflect.Value` (the accessors would panic), hence `panicked`. -/
def encodeField (kd : FieldKind) (val : Value) : GoResult WriteErr String :=
  match kd with
  | .kInvalid => .error .fieldNotSupported
  | .kBool =>
    match val with
    | .vBool b => .ok (formatBoolGo b)
    | _ => .panicked
  | .kInt | .kInt8 | .kInt16 | .kInt32 | .kInt64 =>
    match val with
    | .vInt n => .ok (decStr n)
    | _ => .panicked
  | .kFloat32 | .kFloat64 =>
    match val with
    | .vFloat q => .ok (formatFloatGo q)
    | _ => .panicked
  | .kString =>
    match val with
    | .vString s => .ok s
    | _ => .panicked
  | .kOther => .error .unsupportedType

/-- The `for i := range header` loop building one data row: encode `str.Field(i)`
    and assign `row[i]`; the assignment panics when `i ≥ len(row)`. -/
def encodeCells (fields : List StructField) (rec : List Value) : List (Nat × String) → List String → GoResult WriteErr (List String)
  | [], row => .ok row
  | (i, _) :: rest, row =>
    match encodeField (fields.getD i dfltField).kind (rec.getD i .vOther) with
    | .panicked => .panicked
    | .error e => .error e
    | .ok s =>
      if i < row.length then encodeCells fields rec rest (row.set i s) else .panicked

/-- The record loop of `WriteFromStruct`: one row per record, each starting
    from `make([]string, len(headRow))`. -/
def writeRows (fields : List StructField) (ents : List (Nat × String)) (rowLen : Nat) : List (List Value) → GoResult WriteErr (List (List String))
  | [] => .ok []
  | rec :: rest =>
    match encodeCells fields rec ents (List.replicate rowLen "") with
    | .panicked => .panicked
    | .error e => .error e
    | .ok row =>
      match writeRows fields ents rowLen rest with
      | .panicked => .panicked
      | .error e => .error e
      | .ok rows => .ok (row :: rows)

/-- `WriteFromStruct`'s matrix construction with the header map enumerated in
    the order `ents` (Go map iteration order is arbitrary; `WriteFromStruct`
    below fixes the canonical order, and theorems quantify over permutations). -/
def writeWithOrder (fields : List StructField) (ents : List (Nat × String)) (recs : List (List Value)) : GoResult WriteErr (List (List String)) :=
  match scatterRow ents (List.replicate ents.length "") with
  | .panicked => .panicked
  | .error e => .error e
  | .ok headRow =>
    match writeRows fields ents headRow.length recs with
    | .panicked => .panicked
    | .error e => .error e
    | .ok rows => .ok (headRow :: rows)

/-- Model of `WriteFromStruct`'s output matrix `out` (the file write is the
    out-of-scope collaborator). -/
def WriteFromStruct (fields : List StructField) (recs : List (List Value)) : GoResult WriteErr (List (List String)) :=
  writeWithOrder fields (getStructTagForHeader fields) recs

/-! ## Well-typedness of a record instance (the Go typing invariant) -/

/-- Does `val` inhabit a Go field of kind `kd`?  Integer payloads carry the
    declared-width range invariant of the Go value. -/
def valueMatches : FieldKind → Value → Bool
  | .kBool, .vBool _ => true
  | .kInt, .vInt n => decide (-(2 ^ 63) ≤ n ∧ n < 2 ^ 63)
  | .kInt8, .vInt n => decide (-(2 ^ 7) ≤ n ∧ n < 2 ^ 7)
  | .kInt16, .vInt n => decide (-(2 ^ 15) ≤ n ∧ n < 2 ^ 15)
  | .kInt32, .vInt n => decide (-(2 ^ 31) ≤ n ∧ n < 2 ^ 31)
  | .kInt64, .vInt n => decide (-(2 ^ 63) ≤ n ∧ n < 2 ^ 63)
  | .kFloat32, .vFloat _ => true
  | .kFloat64, .vFloat _ => true
  | .kString, .vString _ => true
  | _, _ => false

/-- Does an integer payload also fit the 32-bit window that
    `strconv.ParseInt(_, 10, 32)` enforces on every read-back? -/
def int32Fits : Value → Bool
  | .vInt n => decide (-(2 ^ 31) ≤ n ∧ n ≤ 2 ^ 31 - 1)
  | _ => true

/-- The value a decoded cell hands back for a stored value: floats come back
    rounded to the nearest integer (ties to even), everything else unchanged. -/
def roundValue : Value → Value
  | .vFloat q => .vFloat ((rhe q : ℚ))
  | v => v

def roundRecord (rec : List Value) : List Value := rec.map roundValue

/-- The cell text `WriteFromStruct` emits for a field value (defined when the
value matches the kind). -/
def encStr (kd : FieldKind) (val : Value) : String :=
  match encodeField kd val with
  | .ok s => s
  | _ => ""

/-- The data row `WriteFromStruct` builds for one record: cell `i` is the
encoding of field `i`'s value. -/
def encodeRecordRow (fields : List StructField) (rec : List Value) : List String :=
  fields.enum.map (fun p => encStr p.2.kind (rec.getD p.1 .vOther))


/-! ## Decimal round-trip lemmas -/

theorem digitVal?_digitChar {d : Nat} (hd : d < 10) : digitVal? (digitChar d) = some d := by
  interval_cases d <;> decide

theorem isDigitChar_digitChar {d : Nat} (hd : d < 10) : isDigitChar (digitChar d) = true := by
  simp [isDigitChar, digitVal?_digitChar hd]

theorem digitChar_ne_minus {d : Nat} (hd : d < 10) : digitChar d ≠ '-' := by
  interval_cases d <;> decide

theorem digitChar_ne_plus {d : Nat} (hd : d < 10) : digitChar d ≠ '+' := by
  interval_cases d <;> decide

theorem digitChar_ne_dot {d : Nat} (hd : d < 10) : digitChar d ≠ '.' := by
  interval_cases d <;> decide

theorem natDigitsAux_ofDigits : ∀ fuel n, n ≤ fuel → Nat.ofDigits 10 (natDigitsAux fuel n) = n
  | 0, n, h => by
    simp only [natDigitsAux]
    rw [Nat.ofDigits_nil]
    omega
  | fuel + 1, n, h => by
    simp only [natDigitsAux]
    by_cases hn : n = 0
    · rw [if_pos hn, Nat.ofDigits_nil]
      omega
    · rw [if_neg hn, Nat.ofDigits_cons, natDigitsAux_ofDigits fuel (n / 10) (by omega)]
      omega

theorem natDigitsAux_lt : ∀ fuel n d, d ∈ natDigitsAux fuel n → d < 10
  | 0, _, _, h => by simp [natDigitsAux] at h
  | fuel + 1, n, d, h => by
    simp only [natDigitsAux] at h
    by_cases hn : n = 0
    · simp [hn] at h
    · rw [if_neg hn, List.mem_cons] at h
      rcases h with h | h
      · omega
      · exact natDigitsAux_lt fuel (n / 10) d h

theorem natDecDigits_ofDigits (n : Nat) : Nat.ofDigits 10 (natDecDigits n) = n :=
  natDigitsAux_ofDigits n n le_rfl

theorem natDecDigits_lt {n d : Nat} (h : d ∈ natDecDigits n) : d < 10 :=
  natDigitsAux_lt n n d h

theorem natDecDigits_ne_nil {n : Nat} (hn : n ≠ 0) : natDecDigits n ≠ [] := by
  cases n with
  | zero => exact absurd rfl hn
  | succ m =>
    simp only [natDecDigits, natDigitsAux, if_neg hn]
    exact List.cons_ne_nil _ _

theorem digitsOfChars_map_digitChar : ∀ l : List Nat, (∀ d ∈ l, d < 10) →
    digitsOfChars (l.map digitChar) = some l
  | [], _ => rfl
  | d :: ds, h => by
    have hd : d < 10 := h d (List.mem_cons_self d ds)
    simp only [List.map_cons, digitsOfChars, digitVal?_digitChar hd,
      digitsOfChars_map_digitChar ds (fun x hx => h x (List.mem_cons_of_mem d hx))]

/-- The digit values behind `natDecChars n`: always a non-empty digit list
reading back (big-endian) as `n`. -/
theorem digitsOfChars_natDecChars (n : Nat) :
    ∃ ds, digitsOfChars (natDecChars n) = some ds ∧ ds ≠ [] ∧
      Nat.ofDigits 10 ds.reverse = n := by
  by_cases hn : n = 0
  · subst hn
    refine ⟨[0], by decide, by decide, by decide⟩
  · refine ⟨(natDecDigits n).reverse, ?_, ?_, ?_⟩
    · have hlt : ∀ d ∈ (natDecDigits n).reverse, d < 10 := fun d hd =>
        natDecDigits_lt (List.mem_reverse.mp hd)
      simp only [natDecChars, if_neg hn]
      exact digitsOfChars_map_digitChar _ hlt
    · simp only [ne_eq, List.reverse_eq_nil_iff]
      exact natDecDigits_ne_nil hn
    · rw [List.reverse_reverse, natDecDigits_ofDigits]

/-- Every character `natDecChars` produces is a decimal digit character. -/
theorem natDecChars_digits {n : Nat} {c : Char} (h : c ∈ natDecChars n) :
    ∃ d, d < 10 ∧ c = digitChar d := by
  by_cases hn : n = 0
  · subst hn
    have h0 : natDecChars 0 = ['0'] := rfl
    rw [h0, List.mem_singleton] at h
    exact ⟨0, by omega, by rw [h]; rfl⟩
  · simp only [natDecChars, if_neg hn, List.mem_map, List.mem_reverse] at h
    obtain ⟨d, hd, rfl⟩ := h
    exact ⟨d, natDecDigits_lt hd, rfl⟩

theorem natDecChars_ne_nil (n : Nat) : natDecChars n ≠ [] := by
  intro hnil
  obtain ⟨ds, hds, hne, _⟩ := digitsOfChars_natDecChars n
  rw [hnil] at hds
  cases hds
  exact hne rfl

theorem parseNatDigits_natDecChars (n : Nat) : parseNatDigits (natDecChars n) = some n := by
  obtain ⟨ds, hds, hne, hval⟩ := digitsOfChars_natDecChars n
  have hie : ds.isEmpty = false := by
    cases ds with
    | nil => exact absurd rfl hne
    | cons a l => rfl
  simp [parseNatDigits, hds, hie, hval]

/-- `strconv.ParseInt` inverts `strconv.FormatInt` (base 10). -/
theorem parseInt10_decStr (v : Int) : parseInt10 (decStr v) = some v := by
  by_cases hv : v < 0
  · simp only [decStr, if_pos hv, parseInt10, parseIntChars, if_pos rfl,
      parseNatDigits_natDecChars, if_true]
    rw [Option.some_inj]
    omega
  · obtain ⟨c, cs, hcons⟩ : ∃ c cs, natDecChars v.toNat = c :: cs := by
      cases h : natDecChars v.toNat with
      | nil => exact absurd h (natDecChars_ne_nil _)
      | cons c cs => exact ⟨c, cs, rfl⟩
    obtain ⟨d, hd, rfl⟩ : ∃ d, d < 10 ∧ c = digitChar d := by
      apply natDecChars_digits (n := v.toNat)
      rw [hcons]; exact List.mem_cons_self _ _
    simp only [decStr, if_neg hv, parseInt10, hcons, parseIntChars,
      if_neg (digitChar_ne_minus hd), if_neg (digitChar_ne_plus hd)]
    rw [← hcons, parseNatDigits_natDecChars]
    rw [Option.some_inj]
    omega

theorem parseIntGo32_decStr {v : Int} (hlo : -(2 ^ 31) ≤ v) (hhi : v ≤ 2 ^ 31 - 1) :
    parseIntGo32 (decStr v) = some v := by
  simp only [parseIntGo32, parseInt10_decStr]
  rw [if_pos ⟨hlo, hhi⟩]

/-- `strconv.ParseFloat` reads `strconv.FormatInt`'s text back as the exact
integer value. -/
theorem parseFloatGo_decStr (v : Int) : parseFloatGo (decStr v) = some ((v : ℚ)) := by
  have key : ∀ n : Nat, parseUnsignedFloatChars (natDecChars n) = some ((n : ℚ)) := by
    intro n
    have hdig : ∀ c ∈ natDecChars n, isDigitChar c = true := by
      intro c hc
      obtain ⟨d, hd, rfl⟩ := natDecChars_digits hc
      exact isDigitChar_digitChar hd
    have htake : (natDecChars n).takeWhile isDigitChar = natDecChars n :=
      List.takeWhile_eq_self_iff.mpr hdig
    have hdrop : (natDecChars n).dropWhile isDigitChar = [] :=
      List.dropWhile_eq_nil_iff.mpr hdig
    obtain ⟨ds, hds, hne, hval⟩ := digitsOfChars_natDecChars n
    have hie : (natDecChars n).isEmpty = false := by
      cases h : natDecChars n with
      | nil => exact absurd h (natDecChars_ne_nil n)
      | cons c cs => rfl
    simp only [parseUnsignedFloatChars, htake, hdrop, hds, hie]
    simp
    exact_mod_cast hval
  by_cases hv : v < 0
  · simp only [decStr, if_pos hv, parseFloatGo, parseFloatChars, if_pos rfl, key,
      Option.map_some', Option.some_inj]
    have : (((-v).toNat : ℚ)) = ((-v : Int) : ℚ) := by
      rw [show (((-v).toNat : ℚ)) = (((-v).toNat : Int) : ℚ) by push_cast; ring,
        Int.toNat_of_nonneg (by omega)]
    rw [this]
    push_cast
    ring_nf
  · obtain ⟨c, cs, hcons⟩ : ∃ c cs, natDecChars v.toNat = c :: cs := by
      cases h : natDecChars v.toNat with
      | nil => exact absurd h (natDecChars_ne_nil _)
      | cons c cs => exact ⟨c, cs, rfl⟩
    obtain ⟨d, hd, rfl⟩ : ∃ d, d < 10 ∧ c = digitChar d := by
      apply natDecChars_digits (n := v.toNat)
      rw [hcons]; exact List.mem_cons_self _ _
    simp only [decStr, if_neg hv, parseFloatGo, parseFloatChars, hcons,
      if_neg (digitChar_ne_minus hd), if_neg (digitChar_ne_plus hd)]
    rw [← hcons, key, Option.some_inj,
      show ((v.toNat : ℚ)) = ((v.toNat : Int) : ℚ) by push_cast; ring,
      Int.toNat_of_nonneg (by omega)]

theorem parseBoolGo_formatBoolGo (b : Bool) : parseBoolGo (formatBoolGo b) = some b := by
  cases b <;> decide

/-- `reflect.Value.SetInt`'s two's-complement conversion is the identity on
values that fit the declared width. -/
theorem bmod_eq_self_of_width {w : Nat} {n : Int} (hw : 1 ≤ w)
    (hlo : -(2 ^ (w - 1)) ≤ n) (hhi : n < 2 ^ (w - 1)) : Int.bmod n (2 ^ w) = n := by
  have hsplit : ((2 ^ w : Nat) : Int) = 2 ^ (w - 1) * 2 := by
    push_cast
    rw [← pow_succ]
    congr 1
    omega
  have hpow : (0 : Int) < 2 ^ (w - 1) := by positivity
  rw [Int.bmod_def, hsplit]
  have hhalf : ((2 : Int) ^ (w - 1) * 2 + 1) / 2 = 2 ^ (w - 1) := by omega
  rw [hhalf]
  by_cases hn : 0 ≤ n
  · have hmod : n % ((2 : Int) ^ (w - 1) * 2) = n := Int.emod_eq_of_lt hn (by omega)
    rw [hmod, if_pos hhi]
  · have hmod : n % ((2 : Int) ^ (w - 1) * 2) = n + 2 ^ (w - 1) * 2 := by
      have hrw : (n + 2 ^ (w - 1) * 2) % ((2 : Int) ^ (w - 1) * 2) =
          n % ((2 : Int) ^ (w - 1) * 2) := by
        rw [show n + (2 : Int) ^ (w - 1) * 2 = n + (2 ^ (w - 1) * 2) * 1 by ring,
          Int.add_mul_emod_self_left]
      rw [← hrw]
      exact Int.emod_eq_of_lt (by omega) (by omega)
    rw [hmod, if_neg (by omega)]
    ring

/-! ## The column-name → index map (last write wins) -/

theorem colNumFrom_not_mem {c : String} : ∀ (h : List String) (i : Nat) (m : String → Option Nat),
    c ∉ h → colNumFrom h i m c = m c
  | [], _, _, _ => rfl
  | v :: rest, i, m, hc => by
    have hcv : c ≠ v := fun hcv => hc (hcv ▸ List.mem_cons_self v rest)
    have hcr : c ∉ rest := fun hcr => hc (List.mem_cons_of_mem v hcr)
    simp only [colNumFrom, colNumFrom_not_mem rest (i + 1) _ hcr, if_neg hcv]

theorem colNumFrom_last {c : String} : ∀ (h : List String) (j i : Nat) (m : String → Option Nat),
    h[j]? = some c → (∀ j', j < j' → h[j']? ≠ some c) →
    colNumFrom h i m c = some (i + j)
  | [], j, _, _, hj, _ => by simp at hj
  | v :: rest, 0, i, m, hj, hlast => by
    simp only [List.getElem?_cons_zero, Option.some_inj] at hj
    have hcr : c ∉ rest := by
      intro hmem
      obtain ⟨j', hj'⟩ := List.mem_iff_getElem?.mp hmem
      exact hlast (j' + 1) (Nat.succ_pos j') (by simpa using hj')
    simp only [colNumFrom, colNumFrom_not_mem rest (i + 1) _ hcr, if_pos hj.symm,
      Nat.add_zero]
  | v :: rest, j + 1, i, m, hj, hlast => by
    simp only [List.getElem?_cons_succ] at hj
    have hlast' : ∀ j', j < j' → rest[j']? ≠ some c := by
      intro j' hj' hcon
      exact hlast (j' + 1) (by omega) (by simpa using hcon)
    simp only [colNumFrom, colNumFrom_last rest j (i + 1) _ hj hlast']
    congr 1
    omega

theorem colNumFrom_isSome_of_mem {c : String} : ∀ (h : List String) (i : Nat) (m : String → Option Nat),
    c ∈ h → (colNumFrom h i m c).isSome
  | [], _, _, hc => absurd hc (List.not_mem_nil c)
  | v :: rest, i, m, hc => by
    by_cases hcr : c ∈ rest
    · exact colNumFrom_isSome_of_mem rest (i + 1) _ hcr
    · have hcv : c = v := by
        rcases List.mem_cons.mp hc with h | h
        · exact h
        · exact absurd h hcr
      simp only [colNumFrom, colNumFrom_not_mem rest (i + 1) _ hcr, if_pos hcv,
        Option.isSome_some]

theorem colNumFrom_bound {c : String} : ∀ (h : List String) (i : Nat) (m : String → Option Nat) (j : Nat),
    colNumFrom h i m c = some j → m c = some j ∨ (i ≤ j ∧ j < i + h.length)
  | [], _, _, _, hj => Or.inl hj
  | v :: rest, i, m, j, hj => by
    rcases colNumFrom_bound rest (i + 1) _ j hj with hm | hrange
    · by_cases hcv : c = v
      · rw [if_pos hcv, Option.some_inj] at hm
        right
        simp only [List.length_cons]
        omega
      · rw [if_neg hcv] at hm
        exact Or.inl hm
    · right
      simp only [List.length_cons]
      omega

theorem buildColNum_none_iff {h : List String} {c : String} :
    buildColNum h c = none ↔ c ∉ h := by
  constructor
  · intro hnone hmem
    have := colNumFrom_isSome_of_mem (c := c) h 0 (fun _ => none) hmem
    rw [buildColNum] at hnone
    rw [hnone] at this
    exact Bool.noConfusion this
  · intro hmem
    exact colNumFrom_not_mem h 0 _ hmem

theorem buildColNum_lt {h : List String} {c : String} {j : Nat}
    (hj : buildColNum h c = some j) : j < h.length := by
  rcases colNumFrom_bound h 0 _ j hj with hm | hrange
  · exact Option.noConfusion hm
  · omega

theorem buildColNum_last {h : List String} {c : String} {j : Nat}
    (hj : h[j]? = some c) (hlast : ∀ j', j < j' → h[j']? ≠ some c) :
    buildColNum h c = some j := by
  have := colNumFrom_last h j 0 (fun _ => none) hj hlast
  simpa using this

/-- The unique-occurrence special case: a column name appearing exactly at
index `j` is bound to `j`. -/
theorem buildColNum_unique {h : List String} {c : String} {j : Nat}
    (hj : h[j]? = some c) (huniq : ∀ j', j' ≠ j → h[j']? ≠ some c) :
    buildColNum h c = some j :=
  buildColNum_last hj (fun j' hlt => huniq j' (by omega))

/-! ## The binder loop -/

theorem structTagsLoop_ne_panicked (colNum : String → Option Nat) :
    ∀ fs : List StructField, structTagsLoop colNum fs ≠ .panicked
  | [] => fun hcon => GoResult.noConfusion hcon
  | fld :: rest => by
    simp only [structTagsLoop]
    by_cases ht : fld.tag = ""
    · rw [if_pos ht]
      exact structTagsLoop_ne_panicked colNum rest
    · rw [if_neg ht]
      cases hc : colNum fld.tag with
      | none => exact fun hcon => GoResult.noConfusion hcon
      | some n =>
        cases hr : structTagsLoop colNum rest with
        | panicked => exact absurd hr (structTagsLoop_ne_panicked colNum rest)
        | error e => exact fun hcon => GoResult.noConfusion hcon
        | ok m => exact fun hcon => GoResult.noConfusion hcon

theorem structTagsLoop_ok_of_all (colNum : String → Option Nat) :
    ∀ fs : List StructField, (∀ f ∈ fs, f.tag ≠ "" → (colNum f.tag).isSome) →
    structTagsLoop colNum fs =
      .ok (fs.filterMap (fun f =>
        if f.tag = "" then none else some (f.name, (colNum f.tag).getD 0)))
  | [], _ => rfl
  | fld :: rest, hall => by
    have hrest := structTagsLoop_ok_of_all colNum rest
      (fun f hf => hall f (List.mem_cons_of_mem fld hf))
    by_cases ht : fld.tag = ""
    · simp only [structTagsLoop, if_pos ht, hrest, List.filterMap_cons, if_pos ht]
    · obtain ⟨n, hn⟩ := Option.isSome_iff_exists.mp
        (hall fld (List.mem_cons_self fld rest) ht)
    -- the head entry resolves and the tail succeeds, so the loop conses
      simp only [structTagsLoop, if_neg ht, hn, hrest, List.filterMap_cons]
      rfl

theorem structTagsLoop_error_iff (colNum : String → Option Nat) :
    ∀ fs : List StructField,
    ((∃ e, structTagsLoop colNum fs = .error e) ↔
      ∃ f ∈ fs, f.tag ≠ "" ∧ colNum f.tag = none)
  | [] => by
    constructor
    · rintro ⟨e, he⟩
      exact absurd he (fun hcon => GoResult.noConfusion hcon)
    · rintro ⟨f, hf, _⟩
      exact absurd hf (List.not_mem_nil f)
  | fld :: rest => by
    have ih := structTagsLoop_error_iff colNum rest
    by_cases ht : fld.tag = ""
    · simp only [structTagsLoop, if_pos ht]
      rw [ih]
      constructor
      · rintro ⟨f, hf, hft, hfc⟩
        exact ⟨f, List.mem_cons_of_mem fld hf, hft, hfc⟩
      · rintro ⟨f, hf, hft, hfc⟩
        rcases List.mem_cons.mp hf with rfl | hf
        · exact absurd ht hft
        · exact ⟨f, hf, hft, hfc⟩
    · cases hc : colNum fld.tag with
      | none =>
        simp only [structTagsLoop, if_neg ht, hc]
        constructor
        · intro _
          exact ⟨fld, List.mem_cons_self fld rest, ht, hc⟩
        · intro _
          exact ⟨fld.tag, rfl⟩
      | some n =>
        simp only [structTagsLoop, if_neg ht, hc]
        cases hr : structTagsLoop colNum rest with
        | panicked => exact absurd hr (structTagsLoop_ne_panicked colNum rest)
        | error e =>
          constructor
          · intro _
            obtain ⟨f, hf, hft, hfc⟩ := ih.mp ⟨e, hr⟩
            exact ⟨f, List.mem_cons_of_mem fld hf, hft, hfc⟩
          · intro _
            exact ⟨e, rfl⟩
        | ok m =>
          constructor
          · rintro ⟨e, he⟩
            exact GoResult.noConfusion he
          · rintro ⟨f, hf, hft, hfc⟩
            rcases List.mem_cons.mp hf with rfl | hf
            · rw [hfc] at hc
              exact Option.noConfusion hc
            · obtain ⟨e, he⟩ := ih.mpr ⟨f, hf, hft, hfc⟩
              rw [he] at hr
              exact GoResult.noConfusion hr

/-- Every binding entry comes from an annotated field whose tag resolved. -/
theorem structTagsLoop_mem_of (colNum : String → Option Nat) :
    ∀ (fs : List StructField) (ps : List (String × Nat)) (p : String × Nat),
    structTagsLoop colNum fs = .ok ps → p ∈ ps →
    ∃ f ∈ fs, f.name = p.1 ∧ f.tag ≠ "" ∧ colNum f.tag = some p.2
  | [], ps, p, hok, hp => by
    cases hok
    exact absurd hp (List.not_mem_nil p)
  | fld :: rest, ps, p, hok, hp => by
    by_cases ht : fld.tag = ""
    · rw [structTagsLoop, if_pos ht] at hok
      obtain ⟨f, hf, h1, h2, h3⟩ := structTagsLoop_mem_of colNum rest ps p hok hp
      exact ⟨f, List.mem_cons_of_mem fld hf, h1, h2, h3⟩
    · rw [structTagsLoop, if_neg ht] at hok
      cases hc : colNum fld.tag with
      | none =>
        rw [hc] at hok
        exact GoResult.noConfusion hok
      | some n =>
        rw [hc] at hok
        cases hr : structTagsLoop colNum rest with
        | panicked => exact absurd hr (structTagsLoop_ne_panicked colNum rest)
        | error e =>
          rw [hr] at hok
          exact GoResult.noConfusion hok
        | ok m =>
          rw [hr] at hok
          cases hok
          rcases List.mem_cons.mp hp with rfl | hp
          · exact ⟨fld, List.mem_cons_self fld rest, rfl, ht, hc⟩
          · obtain ⟨f, hf, h1, h2, h3⟩ := structTagsLoop_mem_of colNum rest m _ hr hp
            exact ⟨f, List.mem_cons_of_mem fld hf, h1, h2, h3⟩

/-- Every annotated field gets a binding entry on success (no partial binding). -/
theorem structTagsLoop_covers (colNum : String → Option Nat) :
    ∀ (fs : List StructField) (ps : List (String × Nat)) (f : StructField),
    structTagsLoop colNum fs = .ok ps → f ∈ fs → f.tag ≠ "" →
    ∃ v, (f.name, v) ∈ ps ∧ colNum f.tag = some v
  | [], ps, f, _, hf, _ => absurd hf (List.not_mem_nil f)
  | fld :: rest, ps, f, hok, hf, hft => by
    by_cases ht : fld.tag = ""
    · rw [structTagsLoop, if_pos ht] at hok
      rcases List.mem_cons.mp hf with rfl | hf
      · exact absurd ht hft
      · exact structTagsLoop_covers colNum rest ps f hok hf hft
    · rw [structTagsLoop, if_neg ht] at hok
      cases hc : colNum fld.tag with
      | none =>
        rw [hc] at hok
        exact GoResult.noConfusion hok
      | some n =>
        rw [hc] at hok
        cases hr : structTagsLoop colNum rest with
        | panicked => exact absurd hr (structTagsLoop_ne_panicked colNum rest)
        | error e =>
          rw [hr] at hok
          exact GoResult.noConfusion hok
        | ok m =>
          rw [hr] at hok
          cases hok
          rcases List.mem_cons.mp hf with rfl | hf
          · exact ⟨n, List.mem_cons_self _ _, hc⟩
          · obtain ⟨v, hv, hcv⟩ := structTagsLoop_covers colNum rest m f hr hf hft
            exact ⟨v, List.mem_cons_of_mem _ hv, hcv⟩

/-! ## Scatter folds: writing values at distinct indices -/

theorem foldl_set_length {α : Type} (s : Nat → α) :
    ∀ (ks : List Nat) (arr : List α),
    (ks.foldl (fun a k => a.set k (s k)) arr).length = arr.length
  | [], _ => rfl
  | k :: ks, arr => by
    simp only [List.foldl_cons, foldl_set_length s ks (arr.set k (s k)), List.length_set]

/-- The result of writing `s k` at each index `k ∈ ks` (later writes of the
same index rewrite the same value, so no distinctness is needed). -/
theorem foldl_set_getElem? {α : Type} (s : Nat → α) :
    ∀ (ks : List Nat) (arr : List α) (j : Nat),
    (ks.foldl (fun a k => a.set k (s k)) arr)[j]? =
      if j ∈ ks ∧ j < arr.length then some (s j) else arr[j]?
  | [], arr, j => by simp
  | k :: ks, arr, j => by
    simp only [List.foldl_cons]
    rw [foldl_set_getElem? s ks (arr.set k (s k)) j, List.length_set]
    by_cases hjk : j = k
    · subst hjk
      by_cases hjlen : j < arr.length
      · by_cases hjks : j ∈ ks
        · rw [if_pos ⟨hjks, hjlen⟩, if_pos ⟨List.mem_cons_self j ks, hjlen⟩]
        · rw [if_neg (fun hcon => hjks hcon.1), if_pos ⟨List.mem_cons_self j ks, hjlen⟩]
          exact List.getElem?_set_self hjlen
      · rw [if_neg (fun hcon => hjlen hcon.2), if_neg (fun hcon => hjlen hcon.2)]
        have hlen' : arr.length ≤ j := Nat.le_of_not_lt hjlen
        rw [List.getElem?_eq_none (by simpa using hlen'),
          List.getElem?_eq_none hlen']
    · have hset : (arr.set k (s k))[j]? = arr[j]? := List.getElem?_set_ne (fun h => hjk h.symm)
      by_cases hjks : j ∈ ks
      · by_cases hjlen : j < arr.length
        · rw [if_pos ⟨hjks, hjlen⟩, if_pos ⟨List.mem_cons_of_mem k hjks, hjlen⟩]
        · rw [if_neg (fun hcon => hjlen hcon.2), if_neg (fun hcon => hjlen hcon.2), hset]
      · rw [if_neg (fun hcon => hjks hcon.1), hset]
        by_cases hjmem : j ∈ k :: ks
        · rcases List.mem_cons.mp hjmem with h | h
          · exact absurd h hjk
          · exact absurd h hjks
        · rw [if_neg (fun hcon => hjmem hcon.1)]

/-- Writing `s k` at every index `k < n` of an `n`-length array produces the
array `[s 0, …, s (n-1)]`, whatever the order and multiplicity of the writes. -/
theorem foldl_set_full {α : Type} (s : Nat → α) (ks : List Nat) (arr target : List α)
    (hcover : ∀ j, j < arr.length → j ∈ ks)
    (hlen : target.length = arr.length)
    (htarget : ∀ j, j < arr.length → target[j]? = some (s j)) :
    ks.foldl (fun a k => a.set k (s k)) arr = target := by
  apply List.ext_getElem?
  intro j
  rw [foldl_set_getElem? s ks arr j]
  by_cases hj : j < arr.length
  · rw [if_pos ⟨hcover j hj, hj⟩, htarget j hj]
  · rw [if_neg (fun hcon => hj hcon.2), List.getElem?_eq_none (Nat.le_of_not_lt hj),
      List.getElem?_eq_none (by omega)]

/-! ## The decode loop -/

/-- Reading the same cell content gives the same decode outcome. -/
theorem decodeCellAt_agree {kd : FieldKind} {k : String} {row row' : List String} {v v' : Nat}
    (h : row'[v']? = row[v]?) : decodeCellAt kd k row' v' = decodeCellAt kd k row v := by
  cases kd <;> simp only [decodeCellAt, h]

/-- Only an out-of-range cell access panics the decode switch. -/
theorem decodeCellAt_ne_panicked {kd : FieldKind} {k : String} {row : List String} {v : Nat}
    (hv : v < row.length) : decodeCellAt kd k row v ≠ .panicked := by
  obtain ⟨cell, hcell⟩ : ∃ cell, row[v]? = some cell :=
    ⟨row[v], List.getElem?_eq_getElem hv⟩
  cases kd <;> simp only [decodeCellAt, hcell] <;>
    first
    | exact fun hcon => GoResult.noConfusion hcon
    | · cases hp : parseBoolGo cell <;> exact fun hcon => GoResult.noConfusion hcon
    | · cases hp : parseIntGo32 cell <;> exact fun hcon => GoResult.noConfusion hcon
    | · cases hp : parseFloatGo cell <;> exact fun hcon => GoResult.noConfusion hcon

/-- A decode loop whose every entry resolves and decodes successfully produces
exactly the accumulated field writes. -/
theorem decodeCells_ok (fields : List StructField) (row : List String)
    (fidx : String → Nat) (tval : Nat → Value) :
    ∀ (ps : List (String × Nat)) (acc : List Value),
    (∀ p ∈ ps, findFieldIdx fields p.1 = some (fidx p.1) ∧
      decodeCellAt (fields.getD (fidx p.1) dfltField).kind p.1 row p.2 = .ok (tval (fidx p.1))) →
    decodeCells fields ps row acc =
      .ok (ps.foldl (fun a p => a.set (fidx p.1) (tval (fidx p.1))) acc)
  | [], acc, _ => rfl
  | (k, v) :: ps, acc, hall => by
    obtain ⟨hfind, hcell⟩ := hall (k, v) (List.mem_cons_self _ _)
    simp only [decodeCells, hfind, hcell, List.foldl_cons]
    exact decodeCells_ok fields row fidx tval ps _
      (fun p hp => hall p (List.mem_cons_of_mem _ hp))

/-- In-range bindings never panic, and the decode loop reads only the cells
at bound indices. -/
theorem decodeCells_inrange (fields : List StructField) :
    ∀ (ps : List (String × Nat)) (row row' : List String) (acc : List Value),
    (∀ p ∈ ps, p.2 < row.length) →
    (∀ p ∈ ps, row'[p.2]? = row[p.2]?) →
    decodeCells fields ps row acc ≠ .panicked ∧
      decodeCells fields ps row' acc = decodeCells fields ps row acc
  | [], _, _, acc, _, _ => ⟨fun hcon => GoResult.noConfusion hcon, rfl⟩
  | (k, v) :: ps, row, row', acc, hb, hagree => by
    have hv : v < row.length := hb (k, v) (List.mem_cons_self _ _)
    cases hfind : findFieldIdx fields k with
    | none =>
      simp only [decodeCells, hfind]
      exact ⟨fun hcon => GoResult.noConfusion hcon, trivial⟩
    | some i =>
      have hcellagree : decodeCellAt (fields.getD i dfltField).kind k row' v =
          decodeCellAt (fields.getD i dfltField).kind k row v :=
        decodeCellAt_agree (hagree (k, v) (List.mem_cons_self _ _))
      simp only [decodeCells, hfind, hcellagree]
      cases hcell : decodeCellAt (fields.getD i dfltField).kind k row v with
      | panicked => exact absurd hcell (decodeCellAt_ne_panicked hv)
      | error e => exact ⟨fun hcon => GoResult.noConfusion hcon, rfl⟩
      | ok val =>
        exact decodeCells_inrange fields ps row row' (acc.set i val)
          (fun p hp => hb p (List.mem_cons_of_mem _ hp))
          (fun p hp => hagree p (List.mem_cons_of_mem _ hp))

/-! ## The encode loops -/

theorem scatterRow_ok (vs : Nat → String) :
    ∀ (ents : List (Nat × String)) (arr : List String),
    (∀ p ∈ ents, p.1 < arr.length ∧ p.2 = vs p.1) →
    scatterRow ents arr = .ok (ents.foldl (fun a p => a.set p.1 (vs p.1)) arr)
  | [], _, _ => rfl
  | (i, v) :: ents, arr, hall => by
    obtain ⟨hi, hv⟩ := hall (i, v) (List.mem_cons_self _ _)
    have hv' : v = vs i := hv
    subst hv'
    simp only [scatterRow, if_pos hi, List.foldl_cons]
    exact scatterRow_ok vs ents _ (fun p hp => by
      obtain ⟨h1, h2⟩ := hall p (List.mem_cons_of_mem _ hp)
      exact ⟨by simpa using h1, h2⟩)

theorem encodeCells_ok (fields : List StructField) (rec : List Value) (es : Nat → String) :
    ∀ (ents : List (Nat × String)) (row : List String),
    (∀ p ∈ ents, p.1 < row.length ∧
      encodeField (fields.getD p.1 dfltField).kind (rec.getD p.1 .vOther) = .ok (es p.1)) →
    encodeCells fields rec ents row =
      .ok (ents.foldl (fun a p => a.set p.1 (es p.1)) row)
  | [], _, _ => rfl
  | (i, v) :: ents, row, hall => by
    obtain ⟨hi, henc⟩ := hall (i, v) (List.mem_cons_self _ _)
    simp only [encodeCells, henc, if_pos hi, List.foldl_cons]
    exact encodeCells_ok fields rec es ents _ (fun p hp => by
      obtain ⟨h1, h2⟩ := hall p (List.mem_cons_of_mem _ hp)
      exact ⟨by simpa using h1, h2⟩)

/-! ## One cell: decode of encode -/

theorem encodeField_ok_of_matches {kd : FieldKind} {val : Value}
    (hm : valueMatches kd val = true) : encodeField kd val = .ok (encStr kd val) := by
  cases kd <;> cases val <;>
    simp only [valueMatches, Bool.false_eq_true] at hm <;>
    rfl

/-- Decoding the cell a field value was encoded to restores the value — with
floats rounded (ties to even) and provided the integer payload also fits the
32-bit `ParseInt` window the decoder always applies. -/
theorem decodeCellAt_encodeField (k : String) {kd : FieldKind} {val : Value}
    {row : List String} {v : Nat} {s : String}
    (hm : valueMatches kd val = true) (h32 : int32Fits val = true)
    (henc : encodeField kd val = .ok s) (hcell : row[v]? = some s) :
    decodeCellAt kd k row v = .ok (roundValue val) := by
  cases kd <;> cases val <;>
    simp only [valueMatches, Bool.false_eq_true, decide_eq_true_eq] at hm
  case kBool.vBool b =>
    simp only [encodeField, GoResult.ok.injEq] at henc
    subst henc
    simp only [decodeCellAt, hcell, parseBoolGo_formatBoolGo]
    rfl
  case kInt.vInt n =>
    simp only [encodeField, GoResult.ok.injEq] at henc
    subst henc
    have h32' : -(2 ^ 31) ≤ n ∧ n ≤ 2 ^ 31 - 1 := of_decide_eq_true h32
    simp only [decodeCellAt, hcell, parseIntGo32_decStr h32'.1 h32'.2, intWidth]
    rw [show roundValue (Value.vInt n) = Value.vInt n from rfl, GoResult.ok.injEq, Value.vInt.injEq]
    exact bmod_eq_self_of_width (w := 64) (by norm_num) hm.1 hm.2
  case kInt8.vInt n =>
    simp only [encodeField, GoResult.ok.injEq] at henc
    subst henc
    have h32' : -(2 ^ 31) ≤ n ∧ n ≤ 2 ^ 31 - 1 := of_decide_eq_true h32
    simp only [decodeCellAt, hcell, parseIntGo32_decStr h32'.1 h32'.2, intWidth]
    rw [show roundValue (Value.vInt n) = Value.vInt n from rfl, GoResult.ok.injEq, Value.vInt.injEq]
    exact bmod_eq_self_of_width (w := 8) (by norm_num) hm.1 hm.2
  case kInt16.vInt n =>
    simp only [encodeField, GoResult.ok.injEq] at henc
    subst henc
    have h32' : -(2 ^ 31) ≤ n ∧ n ≤ 2 ^ 31 - 1 := of_decide_eq_true h32
    simp only [decodeCellAt, hcell, parseIntGo32_decStr h32'.1 h32'.2, intWidth]
    rw [show roundValue (Value.vInt n) = Value.vInt n from rfl, GoResult.ok.injEq, Value.vInt.injEq]
    exact bmod_eq_self_of_width (w := 16) (by norm_num) hm.1 hm.2
  case kInt32.vInt n =>
    simp only [encodeField, GoResult.ok.injEq] at henc
    subst henc
    have h32' : -(2 ^ 31) ≤ n ∧ n ≤ 2 ^ 31 - 1 := of_decide_eq_true h32
    simp only [decodeCellAt, hcell, parseIntGo32_decStr h32'.1 h32'.2, intWidth]
    rw [show roundValue (Value.vInt n) = Value.vInt n from rfl, GoResult.ok.injEq, Value.vInt.injEq]
    exact bmod_eq_self_of_width (w := 32) (by norm_num) hm.1 hm.2
  case kInt64.vInt n =>
    simp only [encodeField, GoResult.ok.injEq] at henc
    subst henc
    have h32' : -(2 ^ 31) ≤ n ∧ n ≤ 2 ^ 31 - 1 := of_decide_eq_true h32
    simp only [decodeCellAt, hcell, parseIntGo32_decStr h32'.1 h32'.2, intWidth]
    rw [show roundValue (Value.vInt n) = Value.vInt n from rfl, GoResult.ok.injEq, Value.vInt.injEq]
    exact bmod_eq_self_of_width (w := 64) (by norm_num) hm.1 hm.2
  case kFloat32.vFloat q =>
    simp only [encodeField, GoResult.ok.injEq] at henc
    subst henc
    simp only [decodeCellAt, hcell, formatFloatGo, parseFloatGo_decStr]
    rfl
  case kFloat64.vFloat q =>
    simp only [encodeField, GoResult.ok.injEq] at henc
    subst henc
    simp only [decodeCellAt, hcell, formatFloatGo, parseFloatGo_decStr]
    rfl
  case kString.vString str =>
    simp only [encodeField, GoResult.ok.injEq] at henc
    subst henc
    simp only [decodeCellAt, hcell]
    rfl

/-! ## Helpers for the canonical (all-annotated) layout -/

theorem filterMap_eq_map_of_all {α β : Type} (g : α → Option β) (h : α → β) :
    ∀ l : List α, (∀ x ∈ l, g x = some (h x)) → l.filterMap g = l.map h
  | [], _ => rfl
  | x :: xs, hall => by
    rw [List.filterMap_cons, hall x (List.mem_cons_self x xs), List.map_cons,
      filterMap_eq_map_of_all g h xs (fun y hy => hall y (List.mem_cons_of_mem x hy))]

theorem nodup_getElem?_eq {α : Type} {l : List α} {i j : Nat} {a : α}
    (hnd : l.Nodup) (hi : l[i]? = some a) (hj : l[j]? = some a) : i = j := by
  have hilt : i < l.length := by
    rcases List.getElem?_eq_some.mp hi with ⟨h, _⟩
    exact h
  exact List.getElem?_inj hilt hnd (hi.trans hj.symm)

/-- With pairwise-distinct field names, `FieldByName` designates exactly the
field at the given position. -/
theorem findFieldIdx_of_nodup : ∀ (fields : List StructField) (j : Nat) (f : StructField),
    (fields.map StructField.name).Nodup → fields[j]? = some f →
    findFieldIdx fields f.name = some j
  | [], j, f, _, hj => by simp at hj
  | g :: rest, 0, f, _, hj => by
    simp only [List.getElem?_cons_zero, Option.some_inj] at hj
    subst hj
    simp [findFieldIdx, List.findIdx?_cons]
  | g :: rest, j + 1, f, hnd, hj => by
    simp only [List.getElem?_cons_succ] at hj
    have hfmem : f ∈ rest := List.mem_iff_getElem?.mpr ⟨j, hj⟩
    have hnamene : (g.name = f.name) = False := by
      simp only [List.map_cons, List.nodup_cons] at hnd
      have : f.name ∈ rest.map StructField.name := List.mem_map_of_mem _ hfmem
      simp only [eq_iff_iff, iff_false]
      intro hcon
      rw [hcon] at hnd
      exact hnd.1 this
    have hrest : findFieldIdx rest f.name = some j :=
      findFieldIdx_of_nodup rest j f (by
        simp only [List.map_cons, List.nodup_cons] at hnd
        exact hnd.2) hj
    simp only [findFieldIdx, List.findIdx?_cons, decide_eq_true_eq, hnamene,
      if_false, List.findIdx?_succ]
    rw [show List.findIdx? (fun f' => f'.name = f.name) rest = some j from hrest]
    rfl

theorem getD_of_getElem? {α : Type} {l : List α} {j : Nat} {a d : α}
    (hj : l[j]? = some a) : l.getD j d = a := by
  rw [List.getD_eq_getElem?_getD, hj]
  rfl

theorem encodeRecordRow_length (fields : List StructField) (rec : List Value) :
    (encodeRecordRow fields rec).length = fields.length := by
  simp [encodeRecordRow, List.enum_length]

theorem encodeRecordRow_getElem? {fields : List StructField} {rec : List Value}
    {j : Nat} {f : StructField} (hj : fields[j]? = some f) :
    (encodeRecordRow fields rec)[j]? = some (encStr f.kind (rec.getD j .vOther)) := by
  simp only [encodeRecordRow, List.getElem?_map, List.getElem?_enum, hj, Option.map_some']

theorem foldl_set_pairs_keys {α β : Type} (keyOf : β → Nat) (s : Nat → α) :
    ∀ (ps : List β) (arr : List α),
    ps.foldl (fun a p => a.set (keyOf p) (s (keyOf p))) arr =
      (ps.map keyOf).foldl (fun a k => a.set k (s k)) arr
  | [], _ => rfl
  | p :: ps, arr => by
    simp only [List.foldl_cons, List.map_cons]
    exact foldl_set_pairs_keys keyOf s ps _

/-- `WriteFromStruct` on an all-annotated struct, with the header map
enumerated in any order: the output is the declaration-order header row
followed by one positionally aligned row per record. -/
theorem writeWithOrder_all (fields : List StructField) (recs : List (List Value))
    (ents : List (Nat × String))
    (hann : ∀ f ∈ fields, f.tag ≠ "")
    (hperm : ents.Perm (getStructTagForHeader fields))
    (hwt : ∀ rec ∈ recs, rec.length = fields.length ∧
      ∀ p ∈ fields.zip rec, valueMatches p.1.kind p.2 = true) :
    writeWithOrder fields ents recs =
      .ok ((fields.map StructField.tag) :: recs.map (encodeRecordRow fields)) := by
  have hcanon : getStructTagForHeader fields = fields.enum.map (fun p => (p.1, p.2.tag)) := by
    apply filterMap_eq_map_of_all
    intro p hp
    have hpf : p.2 ∈ fields := by
      have := List.mem_enum_iff_getElem?.mp hp
      exact List.mem_iff_getElem?.mpr ⟨p.1, this⟩
    rw [if_neg (hann p.2 hpf)]
  have hentlen : ents.length = fields.length := by
    rw [hperm.length_eq, hcanon, List.length_map, List.enum_length]
  have hmem : ∀ p ∈ ents, fields[p.1]? = some (fields.getD p.1 dfltField) ∧
      p.2 = (fields.getD p.1 dfltField).tag ∧ p.1 < fields.length := by
    intro p hp
    have hp' : p ∈ fields.enum.map (fun q => (q.1, q.2.tag)) := by
      rw [← hcanon]
      exact hperm.mem_iff.mp hp
    obtain ⟨q, hq, hpq⟩ := List.mem_map.mp hp'
    have hq' : fields[q.1]? = some q.2 := List.mem_enum_iff_getElem?.mp hq
    have h1 : p.1 = q.1 := by rw [← hpq]
    have h2 : p.2 = q.2.tag := by rw [← hpq]
    have hlt : q.1 < fields.length := by
      rcases List.getElem?_eq_some.mp hq' with ⟨h, _⟩
      exact h
    have hgd : fields.getD p.1 dfltField = q.2 := by
      rw [h1]
      exact getD_of_getElem? hq'
    refine ⟨?_, ?_, ?_⟩
    · rw [hgd, h1]; exact hq'
    · rw [hgd, h2]
    · omega
  have hmapfst : (getStructTagForHeader fields).map Prod.fst = List.range fields.length := by
    rw [hcanon, List.map_map]
    rw [show (Prod.fst ∘ fun p : Nat × StructField => (p.1, p.2.tag)) = Prod.fst from rfl,
      List.enum_map_fst]
  have hkeysperm : (ents.map Prod.fst).Perm (List.range fields.length) := by
    rw [← hmapfst]
    exact hperm.map Prod.fst
  have hcover : ∀ j, j < fields.length → j ∈ ents.map Prod.fst := by
    intro j hj
    exact hkeysperm.mem_iff.mpr (List.mem_range.mpr hj)
  -- the header row
  have hvs : ∀ p ∈ ents, p.1 < (List.replicate ents.length "").length ∧
      p.2 = (fields.getD p.1 dfltField).tag := by
    intro p hp
    obtain ⟨_, hpt, hplt⟩ := hmem p hp
    exact ⟨by rw [List.length_replicate]; omega, hpt⟩
  have hfold : ents.foldl (fun a p => a.set p.1 ((fields.getD p.1 dfltField).tag))
      (List.replicate ents.length "") = fields.map StructField.tag := by
    rw [foldl_set_pairs_keys Prod.fst (fun k => (fields.getD k dfltField).tag) ents _]
    apply foldl_set_full
    · intro j hj
      rw [List.length_replicate] at hj
      exact hcover j (by omega)
    · rw [List.length_map, List.length_replicate, hentlen]
    · intro j hj
      rw [List.length_replicate, hentlen] at hj
      obtain ⟨f, hf⟩ : ∃ f, fields[j]? = some f := ⟨fields[j], List.getElem?_eq_getElem hj⟩
      rw [List.getElem?_map, hf, Option.map_some', getD_of_getElem? hf]
  have hheadrow : scatterRow ents (List.replicate ents.length "") =
      .ok (fields.map StructField.tag) := by
    rw [scatterRow_ok (fun k => (fields.getD k dfltField).tag) ents _ hvs, hfold]
  -- the data rows
  have hrowofrec : ∀ rec ∈ recs,
      encodeCells fields rec ents (List.replicate (fields.map StructField.tag).length "") =
        .ok (encodeRecordRow fields rec) := by
    intro rec hr
    obtain ⟨hlen, hmt⟩ := hwt rec hr
    have hok := encodeCells_ok fields rec
      (fun k => encStr (fields.getD k dfltField).kind (rec.getD k Value.vOther)) ents
      (List.replicate (fields.map StructField.tag).length "") ?_
    · rw [hok]
      congr 1
      rw [foldl_set_pairs_keys Prod.fst
        (fun k => encStr (fields.getD k dfltField).kind (rec.getD k Value.vOther)) ents _]
      apply foldl_set_full
      · intro j hj
        rw [List.length_replicate, List.length_map] at hj
        exact hcover j hj
      · rw [encodeRecordRow_length, List.length_replicate, List.length_map]
      · intro j hj
        rw [List.length_replicate, List.length_map] at hj
        obtain ⟨f, hf⟩ : ∃ f, fields[j]? = some f := ⟨fields[j], List.getElem?_eq_getElem hj⟩
        rw [encodeRecordRow_getElem? hf, getD_of_getElem? hf]
    · intro p hp
      obtain ⟨hf, hpt, hplt⟩ := hmem p hp
      refine ⟨by rw [List.length_replicate, List.length_map]; omega, ?_⟩
      apply encodeField_ok_of_matches
      obtain ⟨rv, hrv⟩ : ∃ rv, rec[p.1]? = some rv :=
        ⟨rec.get ⟨p.1, by omega⟩, by rw [List.getElem?_eq_getElem (by omega), List.get_eq_getElem]⟩
      have hzip : (fields.zip rec)[p.1]? = some (fields.getD p.1 dfltField, rv) :=
        List.getElem?_zip_eq_some.mpr ⟨hf, hrv⟩
      have hmtp := hmt _ (List.mem_iff_getElem?.mpr ⟨p.1, hzip⟩)
      rw [getD_of_getElem? hrv]
      exact hmtp
  have hwr : ∀ rs : List (List Value), (∀ rec ∈ rs, rec ∈ recs) →
      writeRows fields ents (fields.map StructField.tag).length rs =
        .ok (rs.map (encodeRecordRow fields)) := by
    intro rs
    induction rs with
    | nil => intro _; rfl
    | cons rec rs ih =>
      intro hsub
      have h1 := hrowofrec rec (hsub rec (List.mem_cons_self _ _))
      have h2 := ih (fun r hr => hsub r (List.mem_cons_of_mem _ hr))
      simp only [writeRows, h1, h2, List.map_cons]
  simp only [writeWithOrder, hheadrow, hwr recs (fun r hr => hr)]

/-! ## Reading back what was written -/

/-- With pairwise-distinct column names, the tag of the field at position `j`
is bound to column index `j` of the declaration-order header. -/
theorem buildColNum_tags_of_nodup {fields : List StructField} {j : Nat} {f : StructField}
    (htags : (fields.map StructField.tag).Nodup) (hj : fields[j]? = some f) :
    buildColNum (fields.map StructField.tag) f.tag = some j := by
  apply buildColNum_unique
  · rw [List.getElem?_map, hj]; rfl
  · intro j' hne hcon
    exact hne (nodup_getElem?_eq htags hcon (by rw [List.getElem?_map, hj]; rfl))

/-- Binding the declaration-order header of an all-annotated struct succeeds
and produces the identity column assignment. -/
theorem getStructTags_canonical (fields : List StructField)
    (hann : ∀ f ∈ fields, f.tag ≠ "") :
    getStructTags fields (fields.map StructField.tag) =
      .ok (fields.map (fun f =>
        (f.name, (buildColNum (fields.map StructField.tag) f.tag).getD 0))) := by
  rw [getStructTags, structTagsLoop_ok_of_all _ fields ?hsome]
  case hsome =>
    intro f hf _
    have : f.tag ∈ fields.map StructField.tag := List.mem_map_of_mem _ hf
    exact colNumFrom_isSome_of_mem _ 0 _ this
  congr 1
  apply filterMap_eq_map_of_all
  intro f hf
  rw [if_neg (hann f hf)]

/-- Decoding the encoded row of a well-typed record through the canonical
binding restores the record (floats rounded). -/
theorem decodeRow_encodeRecordRow (fields : List StructField) (rec : List Value)
    (hnames : (fields.map StructField.name).Nodup)
    (htags : (fields.map StructField.tag).Nodup)
    (hlen : rec.length = fields.length)
    (hmt : ∀ p ∈ fields.zip rec, valueMatches p.1.kind p.2 = true ∧ int32Fits p.2 = true) :
    decodeRow fields
      (fields.map (fun f =>
        (f.name, (buildColNum (fields.map StructField.tag) f.tag).getD 0)))
      (encodeRecordRow fields rec) = .ok (roundRecord rec) := by
  set ps := fields.map (fun f =>
    (f.name, (buildColNum (fields.map StructField.tag) f.tag).getD 0)) with hps
  set fidx : String → Nat := fun k => (findFieldIdx fields k).getD 0 with hfidx
  set tval : Nat → Value := fun i => roundValue (rec.getD i Value.vOther) with htval
  -- the typing fact at each position
  have hat : ∀ j, j < fields.length →
      valueMatches (fields.getD j dfltField).kind (rec.getD j Value.vOther) = true ∧
        int32Fits (rec.getD j Value.vOther) = true := by
    intro j hj
    obtain ⟨f, hf⟩ : ∃ f, fields[j]? = some f := ⟨fields[j], List.getElem?_eq_getElem hj⟩
    obtain ⟨rv, hrv⟩ : ∃ rv, rec[j]? = some rv :=
      ⟨rec.get ⟨j, by omega⟩, by rw [List.getElem?_eq_getElem (by omega), List.get_eq_getElem]⟩
    have hzip : (fields.zip rec)[j]? = some (f, rv) :=
      List.getElem?_zip_eq_some.mpr ⟨hf, hrv⟩
    have := hmt _ (List.mem_iff_getElem?.mpr ⟨j, hzip⟩)
    rw [getD_of_getElem? hf, getD_of_getElem? hrv]
    exact this
  -- each binding entry resolves via FieldByName and decodes its own cell
  have hentry : ∀ p ∈ ps, findFieldIdx fields p.1 = some (fidx p.1) ∧
      decodeCellAt (fields.getD (fidx p.1) dfltField).kind p.1
        (encodeRecordRow fields rec) p.2 = .ok (tval (fidx p.1)) := by
    intro p hp
    obtain ⟨f, hfmem, hpf⟩ := List.mem_map.mp hp
    obtain ⟨j, hj⟩ := List.mem_iff_getElem?.mp hfmem
    have hcol : buildColNum (fields.map StructField.tag) f.tag = some j :=
      buildColNum_tags_of_nodup htags hj
    have hfind : findFieldIdx fields f.name = some j := findFieldIdx_of_nodup fields j f hnames hj
    have hp1 : p.1 = f.name := by rw [← hpf]
    have hp2 : p.2 = j := by rw [← hpf]; simp [hcol]
    have hfidxval : fidx p.1 = j := by rw [hp1, hfidx]; simp [hfind]
    have hgd : fields.getD j dfltField = f := getD_of_getElem? hj
    have hjlt : j < fields.length := by
      rcases List.getElem?_eq_some.mp hj with ⟨h, _⟩
      exact h
    obtain ⟨hm, h32⟩ := hat j hjlt
    have hfidxval' : fidx f.name = j := by rw [← hp1]; exact hfidxval
    refine ⟨by rw [hp1, hfidxval']; exact hfind, ?_⟩
    rw [hfidxval, hp1, hp2, hgd]
    apply decodeCellAt_encodeField f.name (s := encStr f.kind (rec.getD j Value.vOther))
    · rw [← hgd]; exact (hat j hjlt).1
    · exact h32
    · apply encodeField_ok_of_matches
      rw [← hgd]; exact (hat j hjlt).1
    · exact encodeRecordRow_getElem? hj
  rw [decodeRow, decodeCells_ok fields (encodeRecordRow fields rec) fidx tval ps
    (zeroRecord fields) hentry]
  congr 1
  rw [foldl_set_pairs_keys (fun p : String × Nat => fidx p.1) tval ps _]
  apply foldl_set_full
  · intro j hj
    rw [zeroRecord, List.length_map] at hj
    obtain ⟨f, hf⟩ : ∃ f, fields[j]? = some f := ⟨fields[j], List.getElem?_eq_getElem hj⟩
    have hfind : findFieldIdx fields f.name = some j := findFieldIdx_of_nodup fields j f hnames hf
    apply List.mem_iff_getElem?.mpr
    refine ⟨j, ?_⟩
    rw [List.getElem?_map, hps, List.getElem?_map, hf]
    simp [hfidx, hfind]
  · rw [roundRecord, List.length_map, zeroRecord, List.length_map, hlen]
  · intro j hj
    rw [zeroRecord, List.length_map] at hj
    obtain ⟨rv, hrv⟩ : ∃ rv, rec[j]? = some rv :=
      ⟨rec.get ⟨j, by omega⟩, by rw [List.getElem?_eq_getElem (by omega), List.get_eq_getElem]⟩
    rw [roundRecord, List.getElem?_map, hrv, Option.map_some']
    show some (roundValue rv) = some (roundValue (rec.getD j Value.vOther))
    rw [getD_of_getElem? hrv]

/-- The data-row loop maps a per-row decode over the rows. -/
theorem decodeAllRows_map (fields : List StructField) (colDef : List (String × Nat))
    (f : List String → List Value) :
    ∀ rows : List (List String), (∀ r ∈ rows, decodeRow fields colDef r = .ok (f r)) →
    decodeAllRows fields colDef rows = .ok (rows.map f)
  | [], _ => rfl
  | r :: rows, hall => by
    have h1 := hall r (List.mem_cons_self _ _)
    have h2 := decodeAllRows_map fields colDef f rows
      (fun r' hr' => hall r' (List.mem_cons_of_mem _ hr'))
    simp only [decodeAllRows, h1, h2, List.map_cons]

/-! ## Further helpers for the claims -/

theorem stringData_mk (l : List Char) : (String.mk l).data = l := rfl

theorem parseIntGo32_of_none {cell : String} (h : parseInt10 cell = none) :
    parseIntGo32 cell = none := by
  simp [parseIntGo32, h]

theorem parseIntGo32_of_out {cell : String} {x : Int} (h : parseInt10 cell = some x)
    (hx : x < -(2 ^ 31) ∨ 2 ^ 31 - 1 < x) : parseIntGo32 cell = none := by
  simp only [parseIntGo32, h]
  rw [if_neg]
  rintro ⟨h1, h2⟩
  rcases hx with hx | hx <;> omega

theorem parseIntGo32_of_in {cell : String} {x : Int} (h : parseInt10 cell = some x)
    (h1 : -(2 ^ 31) ≤ x) (h2 : x ≤ 2 ^ 31 - 1) : parseIntGo32 cell = some x := by
  simp only [parseIntGo32, h]
  rw [if_pos ⟨h1, h2⟩]

/-- The decode switch on any integer kind is `ParseInt(_,10,32)` followed by a
width-truncating `SetInt`. -/
theorem decodeCellAt_int {kd : FieldKind} (hk : isIntKind kd = true)
    (fname : String) (row : List String) (v : Nat) (cell : String)
    (hcell : row[v]? = some cell) :
    decodeCellAt kd fname row v =
      (match parseIntGo32 cell with
        | none => .error (.invalidInt fname cell)
        | some x => .ok (.vInt (Int.bmod x (2 ^ intWidth kd)))) := by
  cases kd <;> simp only [isIntKind, Bool.false_eq_true] at hk <;>
    simp only [decodeCellAt, hcell]

theorem intWidth_pos {kd : FieldKind} (hk : isIntKind kd = true) : 1 ≤ intWidth kd := by
  cases kd <;> simp only [isIntKind, Bool.false_eq_true] at hk <;> simp [intWidth]

/-- Decode writes only fields named by the binding; with distinct field names
a binding produced by `getStructTags` names only annotated fields, so every
other position of the record is exactly as in the initial (zero) record. -/
theorem decodeCells_untouched (fields : List StructField) :
    ∀ (qs : List (String × Nat)) (row : List String) (acc out : List Value),
    decodeCells fields qs row acc = .ok out →
    (∀ p ∈ qs, ∃ (jf : Nat) (g : StructField), findFieldIdx fields p.1 = some jf ∧
      fields[jf]? = some g ∧ g.tag ≠ "") →
    ∀ (i : Nat) (f : StructField), fields[i]? = some f → f.tag = "" → out[i]? = acc[i]?
  | [], _, acc, out, hok, _, i, f, hi, hf => by
    cases hok
    rfl
  | (k, v) :: qs, row, acc, out, hok, hq, i, f, hi, hf => by
    obtain ⟨jf, g, hfind, hg, hgt⟩ := hq (k, v) (List.mem_cons_self _ _)
    simp only [decodeCells, hfind] at hok
    cases hcell : decodeCellAt (fields.getD jf dfltField).kind k row v with
    | panicked => rw [hcell] at hok; exact GoResult.noConfusion hok
    | error e => rw [hcell] at hok; exact GoResult.noConfusion hok
    | ok val =>
      rw [hcell] at hok
      have hne : jf ≠ i := by
        intro hcon
        subst hcon
        rw [hg] at hi
        cases hi
        exact hgt hf
      have := decodeCells_untouched fields qs row (acc.set jf val) out hok
        (fun p hp => hq p (List.mem_cons_of_mem _ hp)) i f hi hf
      rw [this, List.getElem?_set_ne hne]

theorem decodeAllRows_ne_panicked (fields : List StructField) (ps : List (String × Nat))
    (hdlen : Nat) (hb : ∀ p ∈ ps, p.2 < hdlen) :
    ∀ rows : List (List String), (∀ r ∈ rows, hdlen ≤ r.length) →
    decodeAllRows fields ps rows ≠ .panicked
  | [], _ => fun hcon => GoResult.noConfusion hcon
  | r :: rows, hlen => by
    have hrb : ∀ p ∈ ps, p.2 < r.length := by
      intro p hp
      have := hb p hp
      have := hlen r (List.mem_cons_self _ _)
      omega
    have hnp := (decodeCells_inrange fields ps r r (zeroRecord fields) hrb
      (fun _ _ => rfl)).1
    simp only [decodeAllRows]
    cases hdec : decodeRow fields ps r with
    | panicked => exact absurd hdec hnp
    | error e => exact fun hcon => GoResult.noConfusion hcon
    | ok rec =>
      cases hrest : decodeAllRows fields ps rows with
      | panicked =>
        exact absurd hrest (decodeAllRows_ne_panicked fields ps hdlen hb rows
          (fun r' hr' => hlen r' (List.mem_cons_of_mem _ hr')))
      | error e => exact fun hcon => GoResult.noConfusion hcon
      | ok out => exact fun hcon => GoResult.noConfusion hcon

/-- Decoding a mapped row family row by row. -/
theorem decodeAllRows_map_comp {β : Type} (fields : List StructField)
    (ps : List (String × Nat)) (enc : β → List String) (g : β → List Value) :
    ∀ xs : List β, (∀ x ∈ xs, decodeRow fields ps (enc x) = .ok (g x)) →
    decodeAllRows fields ps (xs.map enc) = .ok (xs.map g)
  | [], _ => rfl
  | x :: xs, hall => by
    have h1 := hall x (List.mem_cons_self _ _)
    have h2 := decodeAllRows_map_comp fields ps enc g xs
      (fun y hy => hall y (List.mem_cons_of_mem _ hy))
    simp only [List.map_cons, decodeAllRows, h1, h2]

/-! ## Decoding through two headers that bind the same cells -/

/-- If, for every annotated field, the two headers bind the column to indices
`j` and `σ j` and the two rows agree there, the decode loop behaves
identically (same record, same error, same panic). -/
theorem decodeCells_two_headers (fields : List StructField) (r r' : List String)
    (colNumA colNumB : String → Option Nat) (σ : Nat → Nat) :
    ∀ (fs : List StructField) (acc : List Value),
    (∀ f ∈ fs, f.tag ≠ "" → ∃ j, colNumA f.tag = some j ∧ colNumB f.tag = some (σ j) ∧
      r'[σ j]? = r[j]?) →
    decodeCells fields
      (fs.filterMap (fun f => if f.tag = "" then none else some (f.name, (colNumA f.tag).getD 0)))
      r acc =
    decodeCells fields
      (fs.filterMap (fun f => if f.tag = "" then none else some (f.name, (colNumB f.tag).getD 0)))
      r' acc
  | [], _, _ => rfl
  | f :: fs, acc, hall => by
    by_cases ht : f.tag = ""
    · simp only [List.filterMap_cons, if_pos ht]
      exact decodeCells_two_headers fields r r' colNumA colNumB σ fs acc
        (fun g hg hgt => hall g (List.mem_cons_of_mem _ hg) hgt)
    · obtain ⟨j, hA, hB, hagree⟩ := hall f (List.mem_cons_self _ _) ht
      simp only [List.filterMap_cons, if_neg ht, hA, hB, Option.getD_some]
      cases hfind : findFieldIdx fields f.name with
      | none => simp only [decodeCells, hfind]
      | some i =>
        have hcell : decodeCellAt (fields.getD i dfltField).kind f.name r' (σ j) =
            decodeCellAt (fields.getD i dfltField).kind f.name r j :=
          decodeCellAt_agree hagree
        simp only [decodeCells, hfind, hcell]
        cases hres : decodeCellAt (fields.getD i dfltField).kind f.name r j with
        | panicked => rfl
        | error e => rfl
        | ok val =>
          exact decodeCells_two_headers fields r r' colNumA colNumB σ fs (acc.set i val)
            (fun g hg hgt => hall g (List.mem_cons_of_mem _ hg) hgt)

theorem decodeAllRows_congr (fields : List StructField) (ps ps' : List (String × Nat))
    (rows rows' : List (List String))
    (h : List.Forall₂ (fun r r' => decodeRow fields ps r = decodeRow fields ps' r') rows rows') :
    decodeAllRows fields ps rows = decodeAllRows fields ps' rows' := by
  induction h with
  | nil => rfl
  | cons hrr htail ih => simp only [decodeAllRows, hrr, ih]

/-! ## The claims -/

/-- C1 (counterexample): a binding whose column index is out of range for a
data row makes the decode closure PANIC (Go index out of range), it does not
return a `RowTooShort`-style error: reading `[["a"], []]` with a field bound
to column 0 panics. -/
theorem C1_counterexample :
    ReadToStruct [⟨"A", FieldKind.kString, "a"⟩] [["a"], []] = .panicked := by
  rfl

/-- C1 (amended): when every bound column index is in range for the row, the
decode closure never panics, and it reads exactly the cells at the bound
indices — any row agreeing there decodes identically.  (The original claim's
`RowTooShort` error does not exist: an out-of-range index panics, see the
counterexample.) -/
theorem C1_inrange_reads_bound_cells (fields : List StructField)
    (colDef : List (String × Nat)) (row row' : List String) (acc : List Value)
    (hb : ∀ p ∈ colDef, p.2 < row.length)
    (hagree : ∀ p ∈ colDef, row'[p.2]? = row[p.2]?) :
    decodeCells fields colDef row acc ≠ .panicked ∧
      decodeCells fields colDef row' acc = decodeCells fields colDef row acc :=
  decodeCells_inrange fields colDef row row' acc hb hagree

/-- C1 witness: the amended theorem at a concrete binding and row. -/
theorem C1_inrange_reads_bound_cells_witness :
    decodeCells [⟨"A", FieldKind.kString, "a"⟩] [("A", 0)] ["x"]
        (zeroRecord [⟨"A", FieldKind.kString, "a"⟩]) ≠ .panicked ∧
      decodeCells [⟨"A", FieldKind.kString, "a"⟩] [("A", 0)] ["x", "extra"]
          (zeroRecord [⟨"A", FieldKind.kString, "a"⟩]) =
        decodeCells [⟨"A", FieldKind.kString, "a"⟩] [("A", 0)] ["x"]
          (zeroRecord [⟨"A", FieldKind.kString, "a"⟩]) :=
  C1_inrange_reads_bound_cells [⟨"A", FieldKind.kString, "a"⟩] [("A", 0)]
    ["x"] ["x", "extra"] (zeroRecord [⟨"A", FieldKind.kString, "a"⟩])
    (by decide) (by decide)

/-- C2 (counterexample): decode of an `int8` field does not reject a value
that overflows the declared 8-bit width — `"300"` decodes successfully to the
silently truncated value `44`; and an `int64` field rejects `"3000000000"`
although it fits 64 bits, because every integer kind parses with
`ParseInt(_, 10, 32)`. -/
theorem C2_counterexample :
    decodeCellAt FieldKind.kInt8 "F" ["300"] 0 = .ok (.vInt 44) ∧
      decodeCellAt FieldKind.kInt64 "F" ["3000000000"] 0 =
        .error (.invalidInt "F" "3000000000") := by
  exact ⟨rfl, rfl⟩

/-- C2 (amended): for every signed-integer kind, decode fails with
`InvalidInt` exactly when the cell is not a base-10 integer or the parsed
value overflows 32 bits (regardless of the declared width); on success the
stored value is the parsed value truncated two's-complement to the declared
width, hence equal to it whenever it fits that width. -/
theorem C2_int_decode_32bit (kd : FieldKind) (hk : isIntKind kd = true)
    (fname : String) (row : List String) (v : Nat) (cell : String)
    (hcell : row[v]? = some cell) :
    (parseInt10 cell = none → decodeCellAt kd fname row v = .error (.invalidInt fname cell)) ∧
    (∀ x : Int, parseInt10 cell = some x → (x < -(2 ^ 31) ∨ 2 ^ 31 - 1 < x) →
      decodeCellAt kd fname row v = .error (.invalidInt fname cell)) ∧
    (∀ x : Int, parseInt10 cell = some x → -(2 ^ 31) ≤ x → x ≤ 2 ^ 31 - 1 →
      decodeCellAt kd fname row v = .ok (.vInt (Int.bmod x (2 ^ intWidth kd)))) ∧
    (∀ x : Int, parseInt10 cell = some x → -(2 ^ 31) ≤ x → x ≤ 2 ^ 31 - 1 →
      -(2 ^ (intWidth kd - 1)) ≤ x → x < 2 ^ (intWidth kd - 1) →
      decodeCellAt kd fname row v = .ok (.vInt x)) := by
  refine ⟨?_, ?_, ?_, ?_⟩
  · intro h
    rw [decodeCellAt_int hk fname row v cell hcell, parseIntGo32_of_none h]
  · intro x hx hout
    rw [decodeCellAt_int hk fname row v cell hcell, parseIntGo32_of_out hx hout]
  · intro x hx h1 h2
    rw [decodeCellAt_int hk fname row v cell hcell, parseIntGo32_of_in hx h1 h2]
  · intro x hx h1 h2 hlo hhi
    rw [decodeCellAt_int hk fname row v cell hcell, parseIntGo32_of_in hx h1 h2]
    show GoResult.ok (Value.vInt (Int.bmod x (2 ^ intWidth kd))) = .ok (.vInt x)
    rw [bmod_eq_self_of_width (intWidth_pos hk) hlo hhi]

/-- C2 witness: an `int8` cell that fits the width decodes to itself. -/
theorem C2_int_decode_32bit_witness :
    decodeCellAt FieldKind.kInt8 "F" ["57"] 0 = .ok (.vInt 57) :=
  (C2_int_decode_32bit FieldKind.kInt8 rfl "F" ["57"] 0 "57" rfl).2.2.2 57 rfl
    (by decide) (by decide) (by decide) (by decide)

/-- C5: the header binder fails (with the column-not-found error naming the
missing column) iff some annotated column name is absent from the header row,
and on success the binding covers every annotated field — no partial binding
exists. -/
theorem C5_bind_error_iff (fields : List StructField) (colHeader : List String) :
    ((∃ e, getStructTags fields colHeader = .error e) ↔
      ∃ f ∈ fields, f.tag ≠ "" ∧ f.tag ∉ colHeader) ∧
    (∀ ps, getStructTags fields colHeader = .ok ps →
      ∀ f ∈ fields, f.tag ≠ "" → ∃ ix, (f.name, ix) ∈ ps) := by
  constructor
  · rw [getStructTags, structTagsLoop_error_iff]
    constructor
    · rintro ⟨f, hf, hft, hfc⟩
      exact ⟨f, hf, hft, buildColNum_none_iff.mp hfc⟩
    · rintro ⟨f, hf, hft, hfc⟩
      exact ⟨f, hf, hft, buildColNum_none_iff.mpr hfc⟩
  · intro ps hok f hf hft
    obtain ⟨v, hv, _⟩ := structTagsLoop_covers _ fields ps f hok hf hft
    exact ⟨v, hv⟩

/-- C5 witness: the iff and the coverage at a concrete schema and header. -/
theorem C5_bind_error_iff_witness :
    (((∃ e, getStructTags [⟨"A", FieldKind.kString, "a"⟩] ["b"] = .error e) ↔
      ∃ f ∈ [(⟨"A", FieldKind.kString, "a"⟩ : StructField)], f.tag ≠ "" ∧ f.tag ∉ ["b"]) ∧
    (∀ ps, getStructTags [⟨"A", FieldKind.kString, "a"⟩] ["b"] = .ok ps →
      ∀ f ∈ [(⟨"A", FieldKind.kString, "a"⟩ : StructField)], f.tag ≠ "" →
        ∃ ix, (f.name, ix) ∈ ps)) :=
  C5_bind_error_iff [⟨"A", FieldKind.kString, "a"⟩] ["b"]

/-- C6: the column-name → index map used for binding is a single
left-to-right pass with overwrite: a name occurring at `j` with no later
occurrence is mapped to `j`, so a duplicated name gets its last (rightmost)
index. -/
theorem C6_last_write_wins (h : List String) (c : String) (j : Nat)
    (hj : h[j]? = some c) (hlast : ∀ j', j < j' → h[j']? ≠ some c) :
    buildColNum h c = some j :=
  buildColNum_last hj hlast

/-- C6 witness: in `["a", "b", "a"]` the duplicated name `"a"` is bound to
its last index 2. -/
theorem C6_last_write_wins_witness : buildColNum ["a", "b", "a"] "a" = some 2 :=
  C6_last_write_wins ["a", "b", "a"] "a" 2 rfl (fun j' hj' hcon => by
    rw [List.getElem?_eq_none
      (show (["a", "b", "a"] : List String).length ≤ j' by
        simp only [List.length_cons, List.length_nil]
        omega)] at hcon
    exact Option.noConfusion hcon)

/-- C10 (counterexample): on the empty row sequence (zero rows, not even a
header) `ReadToStruct` panics at the unconditional `records[0]` access
instead of returning an error. -/
theorem C10_counterexample :
    ReadToStruct [⟨"A", FieldKind.kString, "a"⟩] [] = .panicked := rfl

/-- C10 (amended): `records[0]` is reached only behind the nonempty case, so
for every nonempty input whose data rows are at least as long as the header,
`ReadToStruct` returns a record list or an error — never a panic.  (On the
empty sequence it panics, see the counterexample.) -/
theorem C10_nonempty_no_panic (fields : List StructField) (hd : List String)
    (rows : List (List String)) (hlen : ∀ r ∈ rows, hd.length ≤ r.length) :
    ReadToStruct fields (hd :: rows) ≠ .panicked := by
  simp only [ReadToStruct]
  cases hst : getStructTags fields hd with
  | panicked => exact absurd hst (structTagsLoop_ne_panicked _ fields)
  | error e => exact fun hcon => GoResult.noConfusion hcon
  | ok ps =>
    apply decodeAllRows_ne_panicked fields ps hd.length ?_ rows hlen
    intro p hp
    obtain ⟨f, _, _, _, hcol⟩ := structTagsLoop_mem_of _ fields ps p hst hp
    exact buildColNum_lt hcol

/-- C10 witness: a one-field read of a header and one data row does not
panic. -/
theorem C10_nonempty_no_panic_witness :
    ReadToStruct [⟨"A", FieldKind.kString, "a"⟩] [["a"], ["x"]] ≠ .panicked :=
  C10_nonempty_no_panic [⟨"A", FieldKind.kString, "a"⟩] ["a"] [["x"]] (by decide)

/-- C7 (counterexample): with the unannotated field declared FIRST, the write
path panics before emitting anything (the header map's key 1 is out of range
for the 1-slot `headRow`), so "either declaration order … without error or
crash" fails. -/
theorem C7_counterexample :
    WriteFromStruct [⟨"U", FieldKind.kString, ""⟩, ⟨"A", FieldKind.kString, "a"⟩] [] =
      .panicked := rfl

/-- C7 (amended): unannotated fields are never touched by the read path —
decoding leaves them exactly at their zero value — and with the annotated
field declared first, a one-annotated/one-unannotated type produces a
one-column header and round-trips only the annotated field (the unannotated
one comes back as its zero value).  With the unannotated field first,
`WriteFromStruct` panics (see the counterexample). -/
theorem C7_unannotated_untouched (fields : List StructField) (colHeader : List String)
    (ps : List (String × Nat)) (row : List String) (out : List Value)
    (hnames : (fields.map StructField.name).Nodup)
    (hps : getStructTags fields colHeader = .ok ps)
    (hdec : decodeRow fields ps row = .ok out) :
    (∀ (i : Nat) (f : StructField), fields[i]? = some f → f.tag = "" →
      out[i]? = some (zeroValue f.kind)) ∧
    WriteFromStruct [⟨"A", FieldKind.kString, "a"⟩, ⟨"U", FieldKind.kString, ""⟩]
        [[.vString "x", .vString "y"]] = .ok [["a"], ["x"]] ∧
    ReadToStruct [⟨"A", FieldKind.kString, "a"⟩, ⟨"U", FieldKind.kString, ""⟩]
        [["a"], ["x"]] = .ok [[.vString "x", .vString ""]] := by
  refine ⟨?_, rfl, rfl⟩
  intro i f hi hf
  have huntouched := decodeCells_untouched fields ps row (zeroRecord fields) out hdec
    ?_ i f hi hf
  · rw [huntouched, zeroRecord, List.getElem?_map, hi, Option.map_some']
  · intro p hp
    obtain ⟨g, hgmem, hgname, hgtag, _⟩ := structTagsLoop_mem_of _ fields ps p hps hp
    obtain ⟨jg, hjg⟩ := List.mem_iff_getElem?.mp hgmem
    have hfind : findFieldIdx fields g.name = some jg :=
      findFieldIdx_of_nodup fields jg g hnames hjg
    exact ⟨jg, g, by rw [hgname] at hfind; exact hfind, hjg, hgtag⟩

/-- C7 witness: the amended theorem at the concrete one-annotated,
one-unannotated type — the unannotated field comes back at its zero value. -/
theorem C7_unannotated_untouched_witness :
    (∀ (i : Nat) (f : StructField),
      ([⟨"A", FieldKind.kString, "a"⟩, ⟨"U", FieldKind.kString, ""⟩] :
        List StructField)[i]? = some f → f.tag = "" →
      ([Value.vString "x", Value.vString ""] : List Value)[i]? =
        some (zeroValue f.kind)) ∧
    WriteFromStruct [⟨"A", FieldKind.kString, "a"⟩, ⟨"U", FieldKind.kString, ""⟩]
        [[.vString "x", .vString "y"]] = .ok [["a"], ["x"]] ∧
    ReadToStruct [⟨"A", FieldKind.kString, "a"⟩, ⟨"U", FieldKind.kString, ""⟩]
        [["a"], ["x"]] = .ok [[.vString "x", .vString ""]] :=
  C7_unannotated_untouched
    [⟨"A", FieldKind.kString, "a"⟩, ⟨"U", FieldKind.kString, ""⟩] ["a"]
    [("A", 0)] ["x"] [Value.vString "x", Value.vString ""]
    (by decide) rfl rfl

/-- C8: for both float kinds the emitted cell is the decimal text of an
integer within 1/2 of the value — zero fractional digits regardless of the
value's fractional part (no `'.'` ever appears in the cell), reproducing the
`FormatFloat(x, 'f', 0, _)` zero-decimal formatting. -/
theorem C8_float_zero_decimals (q : ℚ) :
    ∃ n : Int, encodeField FieldKind.kFloat32 (.vFloat q) = .ok (decStr n) ∧
      encodeField FieldKind.kFloat64 (.vFloat q) = .ok (decStr n) ∧
      |q - (n : ℚ)| ≤ 1 / 2 ∧
      ∀ c ∈ (decStr n).data, c ≠ '.' := by
  refine ⟨rhe q, rfl, rfl, ?_, ?_⟩
  · have h1 : ((⌊q⌋ : ℚ)) ≤ q := Int.floor_le q
    have h2 : q < (⌊q⌋ : ℚ) + 1 := Int.lt_floor_add_one q
    rw [rhe]
    by_cases hlt : q - ((⌊q⌋ : ℚ)) < 1 / 2
    · rw [if_pos hlt, abs_le]
      constructor <;> linarith
    · rw [if_neg hlt]
      by_cases hgt : 1 / 2 < q - ((⌊q⌋ : ℚ))
      · rw [if_pos hgt, abs_le]
        push_cast
        constructor <;> linarith
      · rw [if_neg hgt]
        have heq : q - ((⌊q⌋ : ℚ)) = 1 / 2 := by linarith
        by_cases he : ⌊q⌋ % 2 = 0
        · rw [if_pos he, abs_le]
          constructor <;> linarith
        · rw [if_neg he, abs_le]
          push_cast
          constructor <;> linarith
  · intro c hc
    rw [decStr] at hc
    by_cases hn : rhe q < 0
    · rw [if_pos hn, stringData_mk] at hc
      rcases List.mem_cons.mp hc with rfl | hc
      · decide
      · obtain ⟨d, hd, rfl⟩ := natDecChars_digits hc
        exact digitChar_ne_dot hd
    · rw [if_neg hn, stringData_mk] at hc
      obtain ⟨d, hd, rfl⟩ := natDecChars_digits hc
      exact digitChar_ne_dot hd

/-- C3 (counterexample): the round trip fails on a non-float field: an
`int64` field holding `2147483648` (which fits its declared width) encodes
fine, but decoding the produced file fails with `InvalidInt`, because the
decoder parses every integer cell with `ParseInt(_, 10, 32)`. -/
theorem C3_counterexample :
    WriteFromStruct [⟨"A", FieldKind.kInt64, "a"⟩] [[.vInt 2147483648]] =
      .ok [["a"], ["2147483648"]] ∧
    ReadToStruct [⟨"A", FieldKind.kInt64, "a"⟩] [["a"], ["2147483648"]] =
      .error (.rowError (.invalidInt "A" "2147483648")) := ⟨rfl, rfl⟩

/-- C3 (amended): for a record type all of whose fields are annotated, with
pairwise-distinct field names and pairwise-distinct column names, encoding a
well-typed record set and decoding the produced rows with the same type
yields the same records with every float field rounded to the nearest integer
(ties to even) — in particular field-for-field equal records whenever the
float values are integral — provided every integer value also fits in 32 bits
(values outside that window fail to decode, see the counterexample). -/
theorem C3_roundtrip (fields : List StructField) (recs : List (List Value))
    (hnames : (fields.map StructField.name).Nodup)
    (htags : (fields.map StructField.tag).Nodup)
    (hann : ∀ f ∈ fields, f.tag ≠ "")
    (hwt : ∀ rec ∈ recs, rec.length = fields.length ∧
      ∀ p ∈ fields.zip rec, valueMatches p.1.kind p.2 = true ∧ int32Fits p.2 = true) :
    ∃ rows, WriteFromStruct fields recs = .ok rows ∧
      ReadToStruct fields rows = .ok (recs.map roundRecord) := by
  refine ⟨(fields.map StructField.tag) :: recs.map (encodeRecordRow fields), ?_, ?_⟩
  · exact writeWithOrder_all fields recs _ hann (List.Perm.refl _)
      (fun rec hr => ⟨(hwt rec hr).1, fun p hp => ((hwt rec hr).2 p hp).1⟩)
  · simp only [ReadToStruct, getStructTags_canonical fields hann]
    exact decodeAllRows_map_comp fields _ (encodeRecordRow fields) roundRecord recs
      (fun rec hr => decodeRow_encodeRecordRow fields rec hnames htags
        (hwt rec hr).1 (hwt rec hr).2)

/-- C3 witness: a one-field boolean record round-trips. -/
theorem C3_roundtrip_witness :
    ∃ rows, WriteFromStruct [⟨"A", FieldKind.kBool, "a"⟩] [[.vBool true]] = .ok rows ∧
      ReadToStruct [⟨"A", FieldKind.kBool, "a"⟩] rows =
        .ok ([[Value.vBool true]].map roundRecord) :=
  C3_roundtrip [⟨"A", FieldKind.kBool, "a"⟩] [[.vBool true]]
    (by decide) (by decide) (by decide) (by decide)

/-- C9: for an all-annotated record type, whatever order the header map is
enumerated in (any permutation — Go map iteration order is arbitrary), the
emitted header row is the column names in field declaration order, and each
data row's cell `i` holds the encoding of the field whose column name is
header cell `i`. -/
theorem C9_write_layout (fields : List StructField) (recs : List (List Value))
    (ents : List (Nat × String))
    (hann : ∀ f ∈ fields, f.tag ≠ "")
    (hperm : ents.Perm (getStructTagForHeader fields))
    (hwt : ∀ rec ∈ recs, rec.length = fields.length ∧
      ∀ p ∈ fields.zip rec, valueMatches p.1.kind p.2 = true) :
    writeWithOrder fields ents recs =
      .ok ((fields.map StructField.tag) :: recs.map (encodeRecordRow fields)) ∧
    ∀ (j : Nat) (f : StructField), fields[j]? = some f →
      (fields.map StructField.tag)[j]? = some f.tag ∧
      ∀ rec, (encodeRecordRow fields rec)[j]? =
        some (encStr f.kind (rec.getD j Value.vOther)) := by
  refine ⟨writeWithOrder_all fields recs ents hann hperm hwt, ?_⟩
  intro j f hj
  constructor
  · rw [List.getElem?_map, hj, Option.map_some']
  · intro rec
    exact encodeRecordRow_getElem? hj

/-- C9 witness: a two-field record written with the header map enumerated in
reversed order still yields the declaration-order header and aligned row. -/
theorem C9_write_layout_witness :
    writeWithOrder [⟨"A", FieldKind.kString, "a"⟩, ⟨"B", FieldKind.kString, "b"⟩]
        [(1, "b"), (0, "a")] [[.vString "x", .vString "y"]] =
      .ok (([⟨"A", FieldKind.kString, "a"⟩, ⟨"B", FieldKind.kString, "b"⟩].map
          StructField.tag) ::
        [[Value.vString "x", Value.vString "y"]].map
          (encodeRecordRow [⟨"A", FieldKind.kString, "a"⟩, ⟨"B", FieldKind.kString, "b"⟩])) ∧
    ∀ (j : Nat) (f : StructField),
      ([⟨"A", FieldKind.kString, "a"⟩, ⟨"B", FieldKind.kString, "b"⟩] :
        List StructField)[j]? = some f →
      (([⟨"A", FieldKind.kString, "a"⟩, ⟨"B", FieldKind.kString, "b"⟩] :
        List StructField).map StructField.tag)[j]? = some f.tag ∧
      ∀ rec, (encodeRecordRow [⟨"A", FieldKind.kString, "a"⟩,
          ⟨"B", FieldKind.kString, "b"⟩] rec)[j]? =
        some (encStr f.kind (rec.getD j Value.vOther)) :=
  C9_write_layout [⟨"A", FieldKind.kString, "a"⟩, ⟨"B", FieldKind.kString, "b"⟩]
    [[.vString "x", .vString "y"]] [(1, "b"), (0, "a")]
    (by decide) (by decide) (by decide)

/-- C4 (counterexample): with a duplicated column name the claim fails: the
headers `["a","a"]` are permutations of each other (swap), the data rows
`["x","y"]` and `["y","x"]` are correspondingly permuted, binding succeeds
both times, yet the decoded records differ (`"y"` vs `"x"`), because
last-write-wins binding resolves the duplicate to position 1 in both files. -/
theorem C4_counterexample :
    ReadToStruct [⟨"A", FieldKind.kString, "a"⟩] [["a", "a"], ["x", "y"]] =
      .ok [[.vString "y"]] ∧
    ReadToStruct [⟨"A", FieldKind.kString, "a"⟩] [["a", "a"], ["y", "x"]] =
      .ok [[.vString "x"]] ∧
    ([[Value.vString "y"]] : List (List Value)) ≠ [[Value.vString "x"]] :=
  ⟨rfl, rfl, by decide⟩

/-- C4 (amended): for two header rows related by a position permutation `σ`
in which every annotated column name occurs exactly ONCE (arbitrary unrelated
extra columns allowed, duplicates of annotated names excluded — see the
counterexample), header binding succeeds on both, and decoding the
correspondingly permuted data rows gives identical results. -/
theorem C4_order_insensitive (fields : List StructField) (n : Nat) (σ : Nat → Nat)
    (h h' : List String) (rows rows' : List (List String))
    (hσsurj : ∀ j, j < n → ∃ i, i < n ∧ σ i = j)
    (hhlen : h.length = n) (hhlen' : h'.length = n)
    (hσh : ∀ i, i < n → h'[σ i]? = h[i]?)
    (hrows : List.Forall₂ (fun r r' => ∀ i, i < n → r'[σ i]? = r[i]?) rows rows')
    (huniq : ∀ f ∈ fields, f.tag ≠ "" →
      ∃ j, j < n ∧ h[j]? = some f.tag ∧ ∀ j', j' < n → j' ≠ j → h[j']? ≠ some f.tag) :
    (∃ ps, getStructTags fields h = .ok ps) ∧
    (∃ ps', getStructTags fields h' = .ok ps') ∧
    ReadToStruct fields (h :: rows) = ReadToStruct fields (h' :: rows') := by
  have hkey : ∀ f ∈ fields, f.tag ≠ "" →
      ∃ j, buildColNum h f.tag = some j ∧ buildColNum h' f.tag = some (σ j) ∧ j < n := by
    intro f hf hft
    obtain ⟨j, hjn, hj, hjuniq⟩ := huniq f hf hft
    have hA : buildColNum h f.tag = some j := by
      apply buildColNum_unique hj
      intro j' hne
      by_cases hj'n : j' < n
      · exact hjuniq j' hj'n hne
      · rw [List.getElem?_eq_none (by omega)]
        exact fun hcon => Option.noConfusion hcon
    have hB : buildColNum h' f.tag = some (σ j) := by
      apply buildColNum_unique (by rw [hσh j hjn, hj])
      intro j'' hne
      by_cases hj''n : j'' < n
      · obtain ⟨i'', hi''n, hi''⟩ := hσsurj j'' hj''n
        subst hi''
        rw [hσh i'' hi''n]
        intro hcon
        rcases eq_or_ne i'' j with rfl | hne2
        · exact hne rfl
        · exact hjuniq i'' hi''n hne2 hcon
      · rw [List.getElem?_eq_none (by omega)]
        exact fun hcon => Option.noConfusion hcon
    exact ⟨j, hA, hB, hjn⟩
  have hokA := structTagsLoop_ok_of_all (buildColNum h) fields (fun f hf hft => by
    obtain ⟨j, hA, _, _⟩ := hkey f hf hft
    rw [hA]; rfl)
  have hokB := structTagsLoop_ok_of_all (buildColNum h') fields (fun f hf hft => by
    obtain ⟨j, _, hB, _⟩ := hkey f hf hft
    rw [hB]; rfl)
  have hokA' : getStructTags fields h = .ok _ := hokA
  have hokB' : getStructTags fields h' = .ok _ := hokB
  refine ⟨⟨_, hokA'⟩, ⟨_, hokB'⟩, ?_⟩
  simp only [ReadToStruct, hokA', hokB']
  apply decodeAllRows_congr fields _ _ rows rows'
  apply hrows.imp
  intro r r' hagree
  exact decodeCells_two_headers fields r r' (buildColNum h) (buildColNum h') σ fields
    (zeroRecord fields) (fun f hf hft => by
      obtain ⟨j, hA, hB, hjn⟩ := hkey f hf hft
      exact ⟨j, hA, hB, hagree j hjn⟩)

/-- C4 witness: the amended theorem at a concrete two-column swap with an
unrelated extra column name. -/
theorem C4_order_insensitive_witness :
    (∃ ps, getStructTags [⟨"A", FieldKind.kString, "a"⟩] ["a", "b"] = .ok ps) ∧
    (∃ ps', getStructTags [⟨"A", FieldKind.kString, "a"⟩] ["b", "a"] = .ok ps') ∧
    ReadToStruct [⟨"A", FieldKind.kString, "a"⟩] [["a", "b"], ["x", "y"]] =
      ReadToStruct [⟨"A", FieldKind.kString, "a"⟩] [["b", "a"], ["y", "x"]] :=
  C4_order_insensitive [⟨"A", FieldKind.kString, "a"⟩] 2 (fun i => 1 - i)
    ["a", "b"] ["b", "a"] [["x", "y"]] [["y", "x"]]
    (by
      intro j hj
      interval_cases j
      · exact ⟨1, by omega, rfl⟩
      · exact ⟨0, by omega, rfl⟩)
    rfl rfl
    (by
      intro i hi
      interval_cases i <;> rfl)
    (List.Forall₂.cons (by
      intro i hi
      interval_cases i <;> rfl) List.Forall₂.nil)
    (by
      intro f hf hft
      rcases List.mem_singleton.mp hf with rfl
      refine ⟨0, by omega, rfl, ?_⟩
      intro j' hj' hne
      interval_cases j'
      · exact absurd rfl hne
      · decide)
